import Mathlib

/-!
Verification of the pkgcheck core pipeline (`src/pkgcheck/base.py`,
`src/pkgcheck/checks/cleanup.py`, `src/pkgcheck/checks/unstable_only.py`)
against its natural-language specification.

The Python code is shallowly embedded: all arithmetic is on small
non-negative integers, embedded as `Nat` (`priority` as `Int`); Python
strings become `String`, with character-level operations (`lower`, `split`,
`startswith`, regex matching) carried out on the underlying `List Char` so
that every definition evaluates inside the kernel; Python `frozenset`s with
value equality become `Finset`; Python `set`s used as worklists, whose
`pop()` order is unspecified, are embedded as lists with an explicit
`oracle` parameter choosing which element to pop, so that theorems can
quantify over every pop order the Python runtime could exhibit; `dict`s
(which preserve insertion order in the Python targeted) become association
lists updated in place; fallible code and `assert` statements become
`Option`.  Loops whose termination is not structural are given explicit
fuel; claim theorems are conditioned on (or evaluated at) successful
termination.
-/

namespace Pkgcheck


/-! ### Definitions -/

/-! ## Feed types and scopes (`base.py` lines 26-34)

Feed types are an opaque closed set of five labels, compared by equality
only.  Scopes are the integers 0..3 (`version_scope` .. `repository_scope`).
-/

/-- The five feed types `repo`, `cat`, `cat/pkg`, `cat/pkg-ver`,
`cat/pkg-ver+text` of `base.py`. -/
inductive FT where
  | repo
  | cat
  | pkg
  | ver
  | ebuild
deriving DecidableEq, Repr

def version_scope : Nat := 0

def package_scope : Nat := 1

def category_scope : Nat := 2

def repository_scope : Nat := 3

/-! ## String helpers

Python string primitives used by the embedded code, realized on the
character list underlying a `String`. -/

/-- Python `str.lower` on the character list (`str.lower()` maps each
character to lower case). -/
def lowerStr (s : List Char) : List Char := s.map Char.toLower

/-- Python `str.split(sep)` for a one-character separator. -/
def splitOnChar (c : Char) (s : List Char) : List (List Char) :=
  match s with
  | [] => [[]]
  | x :: xs =>
    let r := splitOnChar c xs
    if x = c then [] :: r
    else
      match r with
      | [] => [[x]]
      | h :: t => (x :: h) :: t

/-- Python `a.startswith(b)`. -/
def strStarts (a b : String) : Bool := b.data.isPrefixOf a.data

/-! ## Check-name pattern filter (`base.py` `convert_check_filter`, lines 290-324)

The regex path hands the token to Python's `re` module, an external
collaborator of this repository.  `reMatchF` models `re.compile(tok,
re.I).match` for the pattern subset relevant here: literal characters, `.`
(any character), postfix `*` (zero or more) and postfix `+` (one or more);
`re.match` anchors at the start of the string only (a prefix match), and
`re.I` together with the pre-lowered token is realized by lowering the
subject.  The matcher is fuelled to keep it structurally recursive; the
fuel in `reMatch` dominates the lexicographic `(subject, pattern)` descent
of every branch. -/

/-- Does pattern element `c` match subject character `x`? (`.` matches every
character.) -/
def chMatch (c x : Char) : Bool := c = '.' || c = x

/-- Modelled from the spec: Python `re.match` prefix-matching semantics for
patterns built from literals, `.`, postfix `*` and postfix `+`. -/
def reMatchF : Nat → List Char → List Char → Bool
  | 0, _, _ => false
  | _ + 1, [], _ => true
  | fuel + 1, c :: '*' :: p, s =>
      reMatchF fuel p s ||
        (match s with
         | [] => false
         | x :: xs => chMatch c x && reMatchF fuel (c :: '*' :: p) xs)
  | fuel + 1, c :: '+' :: p, s =>
      (match s with
       | [] => false
       | x :: xs => chMatch c x && reMatchF fuel (c :: '*' :: p) xs)
  | _ + 1, _ :: _, [] => false
  | fuel + 1, c :: p, x :: xs => chMatch c x && reMatchF fuel p xs

def reMatch (p s : List Char) : Bool :=
  reMatchF (2 * p.length + 2 * s.length + 2) p s

/-- Embedding of `convert_check_filter` on character lists: lower the token;
if it contains `+` or `*` treat it as a regex matched (prefix-wise,
case-insensitively) against the whole name; otherwise split the token on
`.` and accept iff some consecutive slice of the lowered name's dotted
components equals the token's components.  (The Python binds the lowered
token and its split once and returns a closure; here the subterms are
repeated, which is observationally the same.) -/
def checkFilterL (tok : List Char) (name : List Char) : Bool :=
  if (lowerStr tok).contains '+' || (lowerStr tok).contains '*' then
    reMatch (lowerStr tok) (lowerStr name)
  else
    if (splitOnChar '.' (lowerStr tok)).length
        > (splitOnChar '.' (lowerStr name)).length then
      false
    else
      (List.range (splitOnChar '.' (lowerStr name)).length).any
        (fun i =>
          (((splitOnChar '.' (lowerStr name)).drop i).take
            (splitOnChar '.' (lowerStr tok)).length)
          = splitOnChar '.' (lowerStr tok))

/-- Embedding of `convert_check_filter` (`base.py` lines 290-324). -/
def convert_check_filter (tok : String) (name : String) : Bool :=
  checkFilterL tok.data name.data

/-! ## Result state extraction and restoration
(`base.py` `Result.__getstate__` / `Result.__setstate__`, lines 213-229)

A result object is modelled as a partial map from attribute names to values
(`getattr` returning `none` models a missing slot, i.e. `AttributeError`);
the declared persisted attribute set (`__attrs__` or `__slots__`) is a list
of names; the state `dict` is an association list with distinct keys. -/

/-- The attribute-collection loop of `__getstate__`: build `(k, getattr(self,
k))` for each declared attribute, failing (AttributeError) when one is
missing. -/
def getstateAux {V : Type} (obj : String → Option V) :
    List String → Option (List (String × V))
  | [] => some []
  | k :: ks =>
    match obj k with
    | none => none
    | some v => (getstateAux obj ks).map (fun d => (k, v) :: d)

/-- Embedding of `Result.__getstate__`.  The `attrs = []` case takes the
`object.__getstate__()` fallback, outside the declared-attribute model, and
is mapped to `none`. -/
def getstate {V : Type} (attrs : List String) (obj : String → Option V) :
    Option (List (String × V)) :=
  if attrs = [] then none else getstateAux obj attrs

/-- Embedding of `Result.__setstate__`: raise `TypeError` (here `none`)
unless the data's key set is exactly the declared attribute set (Python:
`attrs.difference(data)` empty and `len(attrs) == len(data)` where `attrs`
is a set); otherwise assign every pair. -/
def setstate {V : Type} (attrs : List String) (obj : String → Option V)
    (data : List (String × V)) : Option (String → Option V) :=
  if (∃ k ∈ attrs, k ∉ data.map (fun e => e.1))
      ∨ attrs.dedup.length ≠ data.length then
    none
  else
    some (fun k =>
      match data.find? (fun e => e.1 = k) with
      | some e => some e.2
      | none => obj k)

/-! ## RedundantVersion (`checks/cleanup.py`)

`RedundantVersionReport.feed` receives a package set (ordered by ascending
version) and walks it from the highest version down, keeping a stack of
`(pkg, keyword set)` pairs.  Python's keyword sets are embedded as lists;
every operation performed on them (`difference` emptiness, i.e. subset,
`update`, i.e. union, and emptiness) only depends on membership, so the
embedding is membership-faithful. -/

/-- A versioned package as consumed by the two example checks: its
coordinates, slot, KEYWORDS and live (VCS) flag. -/
structure PkgR where
  category : String
  package : String
  fullver : String
  slot : String
  keywords : List String
  live : Bool
deriving DecidableEq, Repr

/-- Python `curr_set.difference(keys)` is empty, i.e. `curr ⊆ keys`. -/
def subsetB (a b : List String) : Bool := a.all (fun x => b.contains x)

/-- The `RedundantVersion` result record (`cleanup.py` lines 6-21):
`__slots__ = ("category", "package", "version", "slot", "later_versions")`. -/
structure RVRes where
  category : String
  package : String
  version : String
  slot : String
  later_versions : List String
deriving DecidableEq, Repr

/-- One iteration of the `for pkg in reversed(pkgset)` loop of
`RedundantVersionReport.feed` (`cleanup.py` lines 45-68), threading the
`(stack, bad)` state. -/
def rvStep (acc : List (PkgR × List String) × List (PkgR × List PkgR))
    (pkg : PkgR) : List (PkgR × List String) × List (PkgR × List PkgR) :=
  let stack := acc.1
  let bad := acc.2
  if pkg.live then acc
  else
    let curr := pkg.keywords.filter (fun x => !(strStarts x "-"))
    if curr = [] then acc
    else
      let ms := stack.filter (fun e => e.1.slot = pkg.slot && subsetB curr e.2)
      let mpkgs := ms.map (fun e => e.1)
      let curr2 :=
        curr ++ (curr.filter (fun x => !(strStarts x "~"))).map (fun x => "~" ++ x)
      (stack ++ [(pkg, curr2)], if mpkgs = [] then bad else bad ++ [(pkg, mpkgs)])

/-- Embedding of `RedundantVersionReport.feed` (`cleanup.py` lines 37-71),
returning the reports passed to `reporter.add_report` in order. -/
def rvFeed (pkgset : List PkgR) : List RVRes :=
  if pkgset.length = 1 then []
  else
    let final := pkgset.reverse.foldl rvStep ([], [])
    final.2.reverse.map (fun pm =>
      ⟨pm.1.category, pm.1.package, pm.1.fullver, pm.1.slot,
        pm.2.map (fun x => x.fullver)⟩)

/-! ## CheckRunner metadata-error handling (`base.py` lines 410-438)

`CheckRunner.start` and `CheckRunner.feed` invoke each child in turn,
catching `MetadataException` (an external pkgcore type carrying `pkg`,
`error`, `attr`); a caught exception is reported as a synthetic
`MetadataError` only if its `(pkg, error)` pair is not already in the
runner's `_metadata_errors` set, and the loop continues with the next child
either way.  Package identities and error identities are embedded as `Nat`;
a child's behaviour is embedded as its response map (what it raises, if
anything, on `start` and on `feed` of each item). -/

/-- A `MetadataException` as raised by a child: package identity, underlying
error identity and the failing attribute name. -/
structure MExc where
  pkg : Nat
  err : Nat
  attr : String
deriving DecidableEq, Repr

/-- The behaviour of one child of a `CheckRunner`: what it raises (if
anything) on `start` and on `feed` of a given item. -/
structure ChildB where
  onStart : Option MExc
  onFeed : Nat → Option MExc

/-- State of a `CheckRunner` together with the reporter: the
`_metadata_errors` set (kept as an insertion-ordered duplicate-free list of
`(pkg, error)` pairs), the `add_report` calls made (each recorded with the
`(pkg, error)` pair that caused it and the reported `attr`), and the
invocation trace `(event index, child index)` — event 0 is `start`, event
`k+1` is the feed of the `k`-th item. -/
structure RunSt where
  errs : List (Nat × Nat)
  reports : List (Nat × Nat × String)
  calls : List (Nat × Nat)

/-- Does the optional raised exception carry the pair `x`? -/
def hits (o : Option MExc) (x : Nat × Nat) : Bool :=
  match o with
  | some ex => (ex.pkg, ex.err) = x
  | none => false

/-- The `except MetadataException` handler shared by `start` and `feed`:
report only a pair not seen before, and record it. -/
def handleExc (st : RunSt) (o : Option MExc) : RunSt :=
  match o with
  | none => st
  | some ex =>
    if (ex.pkg, ex.err) ∈ st.errs then st
    else
      { st with
        errs := st.errs ++ [(ex.pkg, ex.err)],
        reports := st.reports ++ [(ex.pkg, ex.err, ex.attr)] }

/-- The `for check in self.checks` loop of `start`/`feed`: invoke every
child in order (recording the call), handling a raised metadata exception
without interrupting the loop. -/
def runChildren (ev : Nat) (g : ChildB → Option MExc) :
    Nat → List ChildB → RunSt → RunSt
  | _, [], st => st
  | i, c :: cs, st =>
    runChildren ev g (i + 1) cs
      (handleExc { st with calls := st.calls ++ [(ev, i)] } (g c))

/-- One whole event (a `start` or the feed of one item) on a runner. -/
def runEvent (cs : List ChildB) (ev : Nat) (g : ChildB → Option MExc)
    (st : RunSt) : RunSt :=
  runChildren ev g 0 cs st

/-- The feed events for a list of items, starting at event index `ev`. -/
def runEvents (cs : List ChildB) : Nat → List Nat → RunSt → RunSt
  | _, [], st => st
  | ev, it :: its, st =>
    runEvents cs (ev + 1) its (runEvent cs ev (fun c => c.onFeed it) st)

/-- A full run of one `CheckRunner`: `start`, then the feed of every item. -/
def runAll (cs : List ChildB) (items : List Nat) : RunSt :=
  runEvents cs 1 items (runEvent cs 0 (fun c => c.onStart) ⟨[], [], []⟩)

/-- The invocation trace of one event: every child index in order. -/
def evCalls (n : Nat) (ev : Nat) : List (Nat × Nat) :=
  (List.range n).map (fun i => (ev, i))

/-- The invocation trace of events `ev, ev+1, ...` for `m` further events. -/
def allCallsFrom (n : Nat) : Nat → Nat → List (Nat × Nat)
  | _, 0 => []
  | ev, m + 1 => evCalls n ev ++ allCallsFrom n (ev + 1) m

/-! ## UnstableOnly (`checks/unstable_only.py`)

`UnstableOnlyReport.__init__` builds, per configured stable arch, a stable
and an unstable keyword containment restriction (pkgcore
`ContainmentMatch2` on `keywords`, embedded as list membership);
`feed` skips an arch with a stably keyworded version, otherwise groups the
`~arch`-keyworded version tuple in a `defaultdict` keyed by the exact
package tuple, and emits one result per key.  The arch set is iterated in
an unspecified (hash) order; it is embedded as the list `arches` (assumed
duplicate-free, as a Python set is), which fixes one such order — the
claim's content (skipping, grouping, and which arches share a result) is
order-independent. -/

/-- The `UnstableOnly` result record (`unstable_only.py` lines 9-25):
`__slots__ = ("category", "package", "versions", "arches")`. -/
structure UORes where
  category : String
  package : String
  versions : List String
  arches : List String
deriving DecidableEq, Repr

/-- Python `v[0].match(x)` for some version: arch `a` is stably keyworded in
some member of the package set. -/
def uoSkip (pkgset : List PkgR) (a : String) : Prop :=
  ∃ p ∈ pkgset, a ∈ p.keywords

instance (pkgset : List PkgR) (a : String) : Decidable (uoSkip pkgset a) :=
  List.decidableBEx _ pkgset

/-- The `~arch`-keyworded members of the package set, in order
(`tuple(x for x in pkgset if v[1].match(x))`). -/
def uoU (pkgset : List PkgR) (a : String) : List PkgR :=
  pkgset.filter (fun p => p.keywords.contains ("~" ++ a))

/-- `unstable_arches[unstable].append(k)`: append `a` to the entry keyed by
the package tuple `u`, creating the entry at the end on first touch
(`defaultdict(list)` semantics with insertion-ordered keys). -/
def assocAppend (acc : List (List PkgR × List String)) (u : List PkgR)
    (a : String) : List (List PkgR × List String) :=
  match acc with
  | [] => [(u, [a])]
  | (k, ar) :: rest =>
    if k = u then (k, ar ++ [a]) :: rest
    else (k, ar) :: assocAppend rest u a

/-- The grouping loop of `UnstableOnlyReport.feed` (`unstable_only.py`
lines 50-62): arches with a stable version or an empty unstable tuple are
skipped, the others are grouped by their exact unstable package tuple. -/
def uoGroups (arches : List String) (pkgset : List PkgR) :
    List (List PkgR × List String) :=
  arches.foldl
    (fun acc a =>
      if uoSkip pkgset a then acc
      else if uoU pkgset a = [] then acc
      else assocAppend acc (uoU pkgset a) a)
    []

/-- The `UnstableOnly` result of one group: the coordinates of the first
grouped package (`pkgs[0]`), the grouped version tuple and the arches
sharing it.  (The empty-key case is unreachable: group keys are non-empty.) -/
def uoMk (g : List PkgR × List String) : UORes :=
  match g.1 with
  | [] => ⟨"", "", [], g.2⟩
  | p :: _ => ⟨p.category, p.package, g.1.map (fun y => y.fullver), g.2⟩

/-- Embedding of `UnstableOnlyReport.feed`: one `UnstableOnly` result per
group. -/
def uoFeed (arches : List String) (pkgset : List PkgR) : List UORes :=
  (uoGroups arches pkgset).map uoMk

/-! ## Supporting lemmas for the runner claim -/

/-- The reporter trace tracks `_metadata_errors` exactly: the pair of every
report, in order, is the error set, and the set is duplicate-free. -/
def RInv (st : RunSt) : Prop :=
  st.reports.map (fun r => (r.1, r.2.1)) = st.errs ∧ st.errs.Nodup

/-- The invariant of the grouping fold of `UnstableOnlyReport.feed` after
the arches in `pref` have been processed: keys are duplicate-free and
nonempty, an arch is listed in a group exactly when it was processed,
qualifies and its unstable tuple is the group's key, and every processed
qualifying arch has its group. -/
def GInv (pkgset : List PkgR) (pref : List String)
    (acc : List (List PkgR × List String)) : Prop :=
  (acc.map (fun g => g.1)).Nodup
  ∧ (∀ g ∈ acc, g.1 ≠ [])
  ∧ (∀ g ∈ acc, ∀ x, x ∈ g.2 ↔
      (x ∈ pref ∧ ¬ uoSkip pkgset x ∧ uoU pkgset x = g.1))
  ∧ (∀ b ∈ pref, ¬ uoSkip pkgset b → uoU pkgset b ≠ [] →
      ∃ g ∈ acc, g.1 = uoU pkgset b)

/-- One fold step of `uoGroups`. -/
def uoStep (pkgset : List PkgR) (acc : List (List PkgR × List String))
    (a : String) : List (List PkgR × List String) :=
  if uoSkip pkgset a then acc
  else if uoU pkgset a = [] then acc
  else assocAppend acc (uoU pkgset a) a

/-! ## The pipeline planner `plug` (`base.py` lines 460-644)

Sources, transform classes and sinks (checks) enter the planner as
sequences; of each only the fields `plug` reads are embedded, plus an `id`
distinguishing otherwise equal plugins (Python object identity).  Costs and
scopes are `Nat` (the spec fixes costs as non-negative integers),
`priority` is `Int`.

The planner's `set` worklists (`todo`, `unprocessed`) are popped in an
order the Python runtime does not specify; the embedding keeps each
worklist as an insertion-ordered duplicate-free list and takes an `oracle`
choosing the index popped at each step, so theorems can quantify over every
pop order (the `todo` closure's result is order-independent, so it pops the
head).  `pipes` and `done` only answer membership queries plus one final
iteration; they are kept in insertion order.  Loops get explicit fuel and
return `none` when it runs out; `assert` failures also map to `none`. -/

/-- A source as `plug` sees it: `feed_type`, `scope`, `cost`. -/
structure Source where
  id : Nat
  feed_type : FT
  scope : Nat
  cost : Nat
deriving DecidableEq, Repr

/-- A transform class as `plug` sees it: `source`, `dest`, `scope` (the
minimum scope) and `cost`. -/
structure Tr where
  id : Nat
  source : FT
  dest : FT
  scope : Nat
  cost : Nat
deriving DecidableEq, Repr

/-- A sink (check instance) as `plug` sees it: `feed_type`, `scope`,
`priority`. -/
structure Sink where
  id : Nat
  feed_type : FT
  scope : Nat
  priority : Int
deriving DecidableEq, Repr

/-- Kernel-computable equality for the finsets carried in search states:
two finsets are equal iff each is a subset of the other.  (The default
`Finset` equality instance decides via list permutation, which is defined
by well-founded recursion and does not reduce inside the kernel; these
instances let concrete planner runs be checked by `decide`.) -/
instance (priority := 2000) decEqFinsetFT : DecidableEq (Finset FT) :=
  fun s t =>
    decidable_of_iff (s ⊆ t ∧ t ⊆ s)
      ⟨fun h => Finset.Subset.antisymm h.1 h.2, fun h => by rw [h]; exact ⟨le_refl t, le_refl t⟩⟩

instance (priority := 2000) decEqFinsetTr : DecidableEq (Finset Tr) :=
  fun s t =>
    decidable_of_iff (s ⊆ t ∧ t ⊆ s)
      ⟨fun h => Finset.Subset.antisymm h.1 h.2, fun h => by rw [h]; exact ⟨le_refl t, le_refl t⟩⟩

instance (priority := 2000) decEqFinsetSource : DecidableEq (Finset Source) :=
  fun s t =>
    decidable_of_iff (s ⊆ t ∧ t ⊆ s)
      ⟨fun h => Finset.Subset.antisymm h.1 h.2, fun h => by rw [h]; exact ⟨le_refl t, le_refl t⟩⟩

/-- The three input sequences of `plug`. -/
structure Inp where
  sinks : List Sink
  transforms : List Tr
  sources : List Source
deriving Repr

/-- The `while todo` reachability closure for one source (`base.py` lines
493-501): pop a feed type, mark it reachable, enqueue the unreached
destinations of its in-scope transforms.  (`feed_to_transforms.get(ft)`
lists the transforms with `source == ft` in input order.) -/
def closureLoop (inp : Inp) (srcScope : Nat) :
    Nat → List FT → Finset FT → Option (Finset FT)
  | 0, todo, reach =>
    (match todo with
     | [] => some reach
     | _ :: _ => none)
  | fuel + 1, todo, reach =>
    match todo with
    | [] => some reach
    | ft :: rest =>
      let reach2 := insert ft reach
      let todo2 := (inp.transforms.filter (fun t => t.source = ft)).foldl
        (fun td t =>
          if t.scope ≤ srcScope ∧ t.dest ∉ reach2 ∧ t.dest ∉ td
          then td ++ [t.dest] else td)
        rest
      closureLoop inp srcScope fuel todo2 reach2

/-- The feed types reachable from one source. -/
def sourceReach (inp : Inp) (fuel : Nat) (s : Source) : Option (Finset FT) :=
  closureLoop inp s.scope fuel [s.feed_type] ∅

/-- `best_scope` (`base.py` lines 489-505): per feed type, the maximum scope
among the sources reaching it. -/
def bestScopes (inp : Inp) (fuel : Nat) : Option (FT → Option Nat) :=
  inp.sources.foldlM
    (fun bs s =>
      (sourceReach inp fuel s).map (fun r ft =>
        if ft ∈ r then
          match bs ft with
          | none => some s.scope
          | some sc => some (if sc < s.scope then s.scope else sc)
        else bs ft))
    (fun _ => (none : Option Nat))

/-- The good/bad sink partition (`base.py` lines 507-515): a sink is bad iff
no source reaches its feed type at a scope at least the sink's. -/
def sinkPartition (inp : Inp) (fuel : Nat) : Option (List Sink × List Sink) :=
  (bestScopes inp fuel).map (fun bs =>
    inp.sinks.foldl
      (fun gb sk =>
        match bs sk.feed_type with
        | none => (gb.1, gb.2 ++ [sk])
        | some sc =>
          if sk.scope > sc then (gb.1, gb.2 ++ [sk])
          else (gb.1 ++ [sk], gb.2))
      ([], []))

/-- One `source_map` update (`base.py` lines 534-539): keep, per
`(scope, feed_type)` key, the cheapest source; a strictly cheaper newcomer
replaces the value in place (Python dict update keeps the key position). -/
def mapUpd (m : List ((Nat × FT) × Source)) (s : Source) :
    List ((Nat × FT) × Source) :=
  match m with
  | [] => [((s.scope, s.feed_type), s)]
  | (k, v) :: rest =>
    if k = (s.scope, s.feed_type) then
      (if s.cost < v.cost then (k, s) else (k, v)) :: rest
    else (k, v) :: mapUpd rest s

/-- A single-pipeline search state (`base.py` line 541): `(visited types,
source, transforms, price)`; `visited` and `trans` are Python frozensets,
compared by value. -/
structure SState where
  visited : Finset FT
  src : Source
  trans : Finset Tr
  cost : Nat

/-- Field-wise equality decision for states.  (The derived instance casts
its continuation over each field's equality proof, which the kernel cannot
reduce when two equal finsets have different underlying representatives;
this cast-free formulation keeps concrete planner runs checkable by
`decide`.) -/
instance decEqSStateCF : DecidableEq SState := fun a b =>
  decidable_of_iff
    (a.visited = b.visited ∧ a.src = b.src ∧ a.trans = b.trans ∧ a.cost = b.cost)
    (by cases a; cases b; simp [SState.mk.injEq])

instance : Inhabited SState := ⟨⟨∅, ⟨0, FT.repo, 0, 0⟩, ∅, 0⟩⟩

/-- Python `set.add`: insert at the end unless present. -/
def addAbsent {α : Type} [DecidableEq α] (x : α) (l : List α) : List α :=
  if x ∈ l then l else l ++ [x]

/-- Pop the element at index `i` (the oracle-chosen stand-in for
`set.pop()`). -/
def popIdx {α : Type} [Inhabited α] (l : List α) (i : Nat) : α × List α :=
  (l.getD i default, l.eraseIdx i)

/-- The seed state of one source (`base.py` lines 543-545). -/
def seedState (s : Source) : SState := ⟨{s.feed_type}, s, ∅, s.cost⟩

/-- Growing a state by one transform (`base.py` lines 575-577). -/
def mkExt (p : SState) (t : Tr) : SState :=
  ⟨insert t.dest p.visited, p.src, insert t p.trans, p.cost + t.cost⟩

/-- The guard of the growth loop (`base.py` lines 571-574). -/
def extOK (p : SState) (t : Tr) : Prop :=
  t.scope ≤ p.src.scope ∧ t.source ∈ p.visited ∧ t.dest ∉ p.visited

instance (p : SState) (t : Tr) : Decidable (extOK p t) :=
  inferInstanceAs (Decidable (_ ∧ _ ∧ _))

/-- The `for transform in transforms` growth of one state. -/
def ph1Expand (inp : Inp) (p : SState) (u : List SState) : List SState :=
  inp.transforms.foldl
    (fun u t => if extOK p t then addAbsent (mkExt p t) u else u) u

/-- State of the single-pipeline search loop: the worklist, the processed
set `pipes`, the best cost and plan so far, and the oracle counter. -/
structure Ph1 where
  unproc : List SState
  pipes : List SState
  best : Option Nat
  run : Option (Source × Finset Tr)
  n : Nat

/-- The body of one `while unprocessed` iteration of the single-pipeline
search (`base.py` lines 554-579), applied to the popped state `p` (already
removed from the worklist). -/
def ph1Process (inp : Inp) (sinkTypes : Finset FT) (st : Ph1) (p : SState) :
    Ph1 :=
  if p ∈ st.pipes then st
  else
    let st2 := { st with pipes := st.pipes ++ [p] }
    if sinkTypes ⊆ p.visited then
      match st2.best with
      | none => { st2 with best := some p.cost, run := some (p.src, p.trans) }
      | some b =>
        if p.cost < b then
          { st2 with best := some p.cost, run := some (p.src, p.trans) }
        else st2
    else
      match st2.best with
      | none => { st2 with unproc := ph1Expand inp p st2.unproc }
      | some b =>
        if b ≤ p.cost then st2
        else { st2 with unproc := ph1Expand inp p st2.unproc }

/-- The fuelled single-pipeline search loop. -/
def ph1Loop (inp : Inp) (sinkTypes : Finset FT) (oracle : Nat → Nat) :
    Nat → Ph1 → Option Ph1
  | 0, st =>
    (match st.unproc with
     | [] => some st
     | _ :: _ => none)
  | fuel + 1, st =>
    match st.unproc with
    | [] => some st
    | _ :: _ =>
      let pr := popIdx st.unproc (oracle st.n % st.unproc.length)
      ph1Loop inp sinkTypes oracle fuel
        (ph1Process inp sinkTypes { st with unproc := pr.2, n := st.n + 1 } pr.1)

/-- A combination state of the multi-pipeline fallback (`base.py` lines
591-593): `(visited, source set, sequence of (source, transforms), cost)`. -/
structure CState where
  visited : Finset FT
  srcs : Finset Source
  seq : List (Source × Finset Tr)
  cost : Nat

/-- Cast-free equality decision for the pipes of a combination. -/
instance (priority := 2000) decEqPipePair : DecidableEq (Source × Finset Tr) :=
  fun a b =>
    decidable_of_iff (a.1 = b.1 ∧ a.2 = b.2)
      (by cases a; cases b; simp [Prod.ext_iff])

/-- Cast-free equality decision for pipe sequences. -/
def eqSeq : (l1 l2 : List (Source × Finset Tr)) → Decidable (l1 = l2)
  | [], [] => isTrue rfl
  | [], _ :: _ => isFalse (fun h => by cases h)
  | _ :: _, [] => isFalse (fun h => by cases h)
  | a :: as2, b :: bs =>
    match decEqPipePair a b, eqSeq as2 bs with
    | isTrue h1, isTrue h2 => isTrue (by rw [h1, h2])
    | isFalse h1, _ => isFalse (fun h => h1 (List.cons.inj h).1)
    | _, isFalse h2 => isFalse (fun h => h2 (List.cons.inj h).2)

instance (priority := 2000) decEqSeqCF : DecidableEq (List (Source × Finset Tr)) :=
  eqSeq

/-- Field-wise, cast-free equality decision for combination states. -/
instance decEqCStateCF : DecidableEq CState := fun a b =>
  decidable_of_iff
    (a.visited = b.visited ∧ a.srcs = b.srcs ∧ a.seq = b.seq ∧ a.cost = b.cost)
    (by cases a; cases b; simp [CState.mk.injEq])

instance : Inhabited CState := ⟨⟨∅, ∅, [], 0⟩⟩

/-- One `source_to_pipes.setdefault(source, []).append(...)` step
(`base.py` lines 587-590). -/
def s2pAdd (m : List (Source × List (Finset FT × Finset Tr × Nat)))
    (st : SState) : List (Source × List (Finset FT × Finset Tr × Nat)) :=
  match m with
  | [] => [(st.src, [(st.visited, st.trans, st.cost)])]
  | (s, l) :: rest =>
    if s = st.src then (s, l ++ [(st.visited, st.trans, st.cost)]) :: rest
    else (s, l) :: s2pAdd rest st

/-- The combination growth (`base.py` lines 610-617): append, for every
source not yet used, each of its explored pipes. -/
def ph2Expand (s2p : List (Source × List (Finset FT × Finset Tr × Nat)))
    (p : CState) (u : List CState) : List CState :=
  s2p.foldl
    (fun u sl =>
      if sl.1 ∈ p.srcs then u
      else
        sl.2.foldl
          (fun u vtc =>
            addAbsent
              (⟨p.visited ∪ vtc.1, insert sl.1 p.srcs,
                p.seq ++ [(sl.1, vtc.2.1)], p.cost + vtc.2.2⟩ : CState) u)
          u)
    u

/-- State of the combination search loop. -/
structure Ph2 where
  unproc : List CState
  dn : List CState
  best : Option Nat
  run : Option (List (Source × Finset Tr))
  n : Nat

/-- The body of one iteration of the combination search (`base.py` lines
595-617): note the candidate check updates `best` and then falls through to
the prune test (there is no `continue` in the Python's covering branch). -/
def ph2Process (s2p : List (Source × List (Finset FT × Finset Tr × Nat)))
    (sinkTypes : Finset FT) (st : Ph2) (p : CState) : Ph2 :=
  if p ∈ st.dn then st
  else
    let st2 := { st with dn := st.dn ++ [p] }
    let st3 :=
      if sinkTypes ⊆ p.visited then
        match st2.best with
        | none => { st2 with best := some p.cost, run := some p.seq }
        | some b =>
          if p.cost < b then { st2 with best := some p.cost, run := some p.seq }
          else st2
      else st2
    match st3.best with
    | none => { st3 with unproc := ph2Expand s2p p st3.unproc }
    | some b =>
      if b ≤ p.cost then st3
      else { st3 with unproc := ph2Expand s2p p st3.unproc }

/-- The fuelled combination search loop. -/
def ph2Loop (s2p : List (Source × List (Finset FT × Finset Tr × Nat)))
    (sinkTypes : Finset FT) (oracle : Nat → Nat) : Nat → Ph2 → Option Ph2
  | 0, st =>
    (match st.unproc with
     | [] => some st
     | _ :: _ => none)
  | fuel + 1, st =>
    match st.unproc with
    | [] => some st
    | _ :: _ =>
      let pr := popIdx st.unproc (oracle st.n % st.unproc.length)
      ph2Loop s2p sinkTypes oracle fuel
        (ph2Process s2p sinkTypes { st with unproc := pr.2, n := st.n + 1 } pr.1)

/-- The planning part of `plug` (`base.py` lines 460-620): everything up to
and including the choice of `pipes_to_run`.  Returns the bad sinks, the
chosen `(source, transforms)` plans, and the good sinks that the
tree-construction phase is to consume (empty on the two early-return
paths, which build nothing).  `none` models an `assert` failure or fuel
exhaustion.  (The unused `highest_required_scope` of the Python is
omitted.) -/
def plugPlans (inp : Inp) (oracle : Nat → Nat) (fuel : Nat) :
    Option (List Sink × List (Source × Finset Tr) × List Sink) :=
  match inp.sinks with
  | [] => none
  | _ :: _ =>
    match sinkPartition inp fuel with
    | none => none
    | some gb =>
      match hg : gb.1 with
      | [] => some (gb.2, [], [])
      | g :: gs =>
        let lowest := gs.foldl (fun m sk => min m sk.scope) g.scope
        match inp.sources.filter (fun s => lowest ≤ s.scope) with
        | [] => some (gb.2 ++ gb.1, [], [])
        | s2 :: srest =>
          let sinkTypes :=
            gb.1.foldl (fun s sk => insert sk.feed_type s) (∅ : Finset FT)
          let smap := (s2 :: srest).foldl mapUpd []
          let st0 : Ph1 :=
            ⟨(smap.map (fun e => e.2)).map seedState, [], none, none, 0⟩
          match ph1Loop inp sinkTypes oracle fuel st0 with
          | none => none
          | some f1 =>
            match f1.run with
            | some pr => some (gb.2, [pr], gb.1)
            | none =>
              let s2p := f1.pipes.foldl s2pAdd []
              let st20 : Ph2 :=
                ⟨f1.pipes.map (fun p =>
                  ⟨p.visited, {p.src}, [(p.src, p.trans)], p.cost⟩),
                  [], none, none, f1.n⟩
              match ph2Loop s2p sinkTypes oracle fuel st20 with
              | none => none
              | some f2 =>
                match f2.run with
                | some sq => some (gb.2, sq, gb.1)
                | none => none

/-! ## Transform-tree construction (`base.py` lines 622-644)

`build_transform` builds, per chosen plan, a tree of `CheckRunner`s: at a
node of feed type `ft` the children are the subtrees of the plan's
transforms rooted at `ft` (built first, in order), then the still-unassigned
sinks matching `ft` — appended while iterating `reversed(range(len(
good_sinks)))` and deleting in place, i.e. taken from the end of the sorted
pool.  The embedding records, per constructed runner node, the list of
sinks fed directly by it (in the `CheckRunner.feed` iteration order), which
abstracts the tree to exactly the data the ordering claims are about; the
`good_sinks` pool is threaded through explicitly.  The plan's transform
frozenset is iterated in the input transform order (its Python iteration
order is unspecified); this only permutes sibling subtrees, and cannot move
a sink between nodes, because a valid plan's destinations are distinct. -/

/-- The stable ascending insertion of `good_sinks.sort(key=attrgetter(
'priority'))`: a new sink goes after every sink of priority at most its. -/
def insPr (x : Sink) : List Sink → List Sink
  | [] => [x]
  | y :: ys => if y.priority ≤ x.priority then y :: insPr x ys else x :: y :: ys

/-- Stable ascending sort by `priority` (any stable sort computes the same
list as Python's). -/
def sortSinks (l : List Sink) : List Sink := l.foldl (fun acc x => insPr x acc) []

/-- The sink-consuming loop `for i in reversed(range(len(good_sinks)))`:
walk the pool from its end, appending each match to the children and
deleting it.  Returns (consumed children in append order, remaining pool). -/
def consumeFromEnd (p : Sink → Bool) : List Sink → List Sink × List Sink
  | [] => ([], [])
  | sk :: rest =>
    let r := consumeFromEnd p rest
    if p sk then (r.1 ++ [sk], r.2) else (r.1, sk :: r.2)

/-- The `children = list(trans(build_transform(...)) for trans in ...)`
generator: build each matching transform's subtree in order with the
recursive tree builder `rec`, threading the sink pool. -/
def buildKids (rec : FT → List Sink → Option (List (List Sink) × List Sink)) :
    List Tr → List Sink → Option (List (List Sink) × List Sink)
  | [], pool => some ([], pool)
  | t :: rest, pool =>
    match rec t.dest pool with
    | none => none
    | some r1 =>
      match buildKids rec rest r1.2 with
      | none => none
      | some r2 => some (r1.1 ++ r2.1, r2.2)

/-- `build_transform(scope, feed_type, transforms)` for one node, fuelled:
build the subtrees of the matching transforms first (threading the sink
pool), then consume this node's sinks from the end of the pool.  Returns
the per-node sink lists of the subtree (this node's last) and the new pool. -/
def buildT (inp : Inp) : Nat → Nat → Finset Tr → FT → List Sink →
    Option (List (List Sink) × List Sink)
  | 0, _, _, _, _ => none
  | fuel + 1, scope, ts, ft, pool =>
    match buildKids (fun ft2 pool2 => buildT inp fuel scope ts ft2 pool2)
        (inp.transforms.filter (fun t =>
          decide (t ∈ ts) && decide (t.source = ft) && decide (t.scope ≤ scope)))
        pool with
    | none => none
    | some r1 =>
      some (r1.1 ++ [(consumeFromEnd
          (fun sk => decide (sk.feed_type = ft) && decide (sk.scope ≤ scope)) r1.2).1],
        (consumeFromEnd
          (fun sk => decide (sk.feed_type = ft) && decide (sk.scope ≤ scope)) r1.2).2)

/-- The `result = list((source, build_transform(...)) for source, transforms
in pipes_to_run)` loop, threading the sink pool. -/
def buildPlans (inp : Inp) (fuel : Nat) :
    List (Source × Finset Tr) → List Sink →
    Option (List (Source × List (List Sink)) × List Sink)
  | [], pool => some ([], pool)
  | pr :: rest, pool =>
    match buildT inp fuel pr.1.scope pr.2 pr.1.feed_type pool with
    | none => none
    | some r1 =>
      match buildPlans inp fuel rest r1.2 with
      | none => none
      | some r2 => some ((pr.1, r1.1) :: r2.1, r2.2)

/-- The whole of `plug`: plan, sort the good sinks by priority (stable,
ascending), build every plan's runner tree, and require the pool to be
fully consumed (`assert not good_sinks`).  Returns the bad sinks and, per
plan, its source and the sink list of every constructed runner node. -/
def plugFull (inp : Inp) (oracle : Nat → Nat) (fuel : Nat) :
    Option (List Sink × List (Source × List (List Sink))) :=
  match plugPlans inp oracle fuel with
  | none => none
  | some r =>
    match buildPlans inp fuel r.2.1 (sortSinks r.2.2) with
    | none => none
    | some b =>
      match b.2 with
      | [] => some (r.1, b.1)
      | _ :: _ => none

/-- The total cost of a list of `(source, transforms)` plans: each pipe
costs its source plus its transforms. -/
def planCost (plans : List (Source × Finset Tr)) : Nat :=
  (plans.map (fun pr => pr.1.cost + pr.2.sum (fun t => t.cost))).sum

/-! ## Declarative plan notions

The claims about the planner compare its output with arbitrary alternative
plans; a pipe of an alternative plan is a source together with a transform
set the search could assemble over it (each transform in scope, drawing
from a visited feed type, producing a fresh one), and it hosts a sink when
the sink's feed type is reached and its scope is within the source's. -/

/-- The feed types present in the pipe `(s, T)`: the source's own feed type
and every transform's destination. -/
def visitedOf (s : Source) (T : Finset Tr) : Finset FT :=
  insert s.feed_type (T.image (fun t => t.dest))

/-- The cost of the pipe `(s, T)`. -/
def costOf (s : Source) (T : Finset Tr) : Nat :=
  s.cost + T.sum (fun t => t.cost)

/-- The transform sets assemblable over source `s` from the transform pool:
starting empty, repeatedly add a pool transform within the source's scope
whose input type is already visited and whose output type is not. -/
inductive Reach (pool : List Tr) (s : Source) : Finset Tr → Prop
  | nil : Reach pool s ∅
  | grow {T : Finset Tr} {t : Tr} : Reach pool s T → t ∈ pool →
      t.scope ≤ s.scope → t.source ∈ visitedOf s T → t.dest ∉ visitedOf s T →
      Reach pool s (insert t T)

/-- The pipe `(s, T)` can host sink `sk`: its feed type is produced and the
source's scope suffices (the two conditions `build_transform` attaches a
sink under). -/
def hosts (s : Source) (T : Finset Tr) (sk : Sink) : Prop :=
  sk.feed_type ∈ visitedOf s T ∧ sk.scope ≤ s.scope

instance (s : Source) (T : Finset Tr) (sk : Sink) : Decidable (hosts s T sk) :=
  inferInstanceAs (Decidable (_ ∧ _))

/-! ## Ordering of sink invocation (claim C1) -/

/-- Ascending priority between sinks. -/
def ple (a b : Sink) : Prop := a.priority ≤ b.priority

/-- Descending (non-increasing) priority between sinks. -/
def gpe (a b : Sink) : Prop := b.priority ≤ a.priority

/-- The visited feed types after `V` along the chain `l`. -/
def afterV (V : Finset FT) (l : List Tr) : Finset FT :=
  l.foldl (fun v t => insert t.dest v) V

/-- A linear chain of transform additions over source `s` starting from
visited set `V`: each element is a pool transform within scope whose input
is already visited and whose output is fresh at its position. -/
inductive ChainFrom (pool : List Tr) (s : Source) : Finset FT → List Tr → Prop
  | nil (V : Finset FT) : ChainFrom pool s V []
  | cons {V : Finset FT} {t : Tr} {l : List Tr} :
      t ∈ pool → t.scope ≤ s.scope → t.source ∈ V → t.dest ∉ V →
      ChainFrom pool s (insert t.dest V) l → ChainFrom pool s V (t :: l)

/-! ## The single-pipeline worklist invariant -/

/-- A search state is well formed: its source is one of the seeds and its
fields are the visited set, transform set and price of a reachable pipe. -/
def StValid (inp : Inp) (seeds : List Source) (p : SState) : Prop :=
  p.src ∈ seeds ∧ Reach inp.transforms p.src p.trans ∧
  p.visited = visitedOf p.src p.trans ∧ p.cost = costOf p.src p.trans

/-- The recorded best cost exists and is at most `n`. -/
def bestLe (b? : Option Nat) (n : Nat) : Prop := ∃ b, b? = some b ∧ b ≤ n

/-- The invariant of the `while unprocessed` loop (`base.py` lines
554-579). -/
structure Inv1 (inp : Inp) (seeds : List Source) (sinkTypes : Finset FT)
    (st : Ph1) : Prop where
  vUn : ∀ p ∈ st.unproc, StValid inp seeds p
  vPi : ∀ p ∈ st.pipes, StValid inp seeds p
  wf : ∀ src T, src ∈ seeds → Reach inp.transforms src T →
      sinkTypes ⊆ visitedOf src T →
      bestLe st.best (costOf src T) ∨
      ∃ p ∈ st.unproc, p ∉ st.pipes ∧ p.src = src ∧ p.trans ⊆ T
  covBest : ∀ p ∈ st.pipes, sinkTypes ⊆ p.visited → bestLe st.best p.cost
  expDone : ∀ p ∈ st.pipes, ¬ sinkTypes ⊆ p.visited →
      bestLe st.best p.cost ∨
      ∀ t ∈ inp.transforms, extOK p t →
        mkExt p t ∈ st.pipes ∨ mkExt p t ∈ st.unproc
  runIff : st.best = none ↔ st.run = none
  runOK : ∀ b, st.best = some b → ∃ src T, st.run = some (src, T) ∧
      src ∈ seeds ∧ Reach inp.transforms src T ∧
      sinkTypes ⊆ visitedOf src T ∧ costOf src T = b

/-! ### Theorems -/

lemma handleExc_inv (st : RunSt) (o : Option MExc) (h : RInv st) :
    RInv (handleExc st o) := by
  obtain ⟨h1, h2⟩ := h
  cases o with
  | none => exact ⟨h1, h2⟩
  | some ex =>
    simp only [handleExc]
    by_cases hm : (ex.pkg, ex.err) ∈ st.errs
    · rw [if_pos hm]; exact ⟨h1, h2⟩
    · rw [if_neg hm]
      refine ⟨?_, ?_⟩
      · simp [h1]
      · simpa [List.nodup_append] using ⟨h2, hm⟩

lemma handleExc_errs_mem (st : RunSt) (o : Option MExc) (x : Nat × Nat) :
    x ∈ (handleExc st o).errs ↔ x ∈ st.errs ∨ hits o x = true := by
  cases o with
  | none => simp [handleExc, hits]
  | some ex =>
    simp only [handleExc, hits]
    by_cases hm : (ex.pkg, ex.err) ∈ st.errs
    · rw [if_pos hm]
      constructor
      · intro h; exact Or.inl h
      · rintro (h | h)
        · exact h
        · rw [decide_eq_true_iff] at h; rw [← h]; exact hm
    · rw [if_neg hm]
      simp only [List.mem_append, List.mem_singleton, decide_eq_true_iff]
      constructor
      · rintro (h | h)
        · exact Or.inl h
        · exact Or.inr h.symm
      · rintro (h | h)
        · exact Or.inl h
        · exact Or.inr h.symm

lemma handleExc_calls (st : RunSt) (o : Option MExc) :
    (handleExc st o).calls = st.calls := by
  cases o with
  | none => rfl
  | some ex =>
    simp only [handleExc]
    by_cases hm : (ex.pkg, ex.err) ∈ st.errs
    · rw [if_pos hm]
    · rw [if_neg hm]

lemma runChildren_inv (ev : Nat) (g : ChildB → Option MExc)
    (cs : List ChildB) : ∀ (i : Nat) (st : RunSt), RInv st →
    RInv (runChildren ev g i cs st) := by
  induction cs with
  | nil => intro i st h; exact h
  | cons c cs ih =>
    intro i st h
    exact ih (i + 1) _ (handleExc_inv _ _ h)

lemma runChildren_errs_mem (ev : Nat) (g : ChildB → Option MExc)
    (cs : List ChildB) (x : Nat × Nat) : ∀ (i : Nat) (st : RunSt),
    (x ∈ (runChildren ev g i cs st).errs ↔
      x ∈ st.errs ∨ cs.any (fun c => hits (g c) x) = true) := by
  induction cs with
  | nil => intro i st; simp [runChildren]
  | cons c cs ih =>
    intro i st
    show x ∈ (runChildren ev g (i + 1) cs _).errs ↔ _
    rw [ih]
    show x ∈ (handleExc _ (g c)).errs ∨ _ ↔ _
    rw [handleExc_errs_mem]
    simp only [List.any_cons, Bool.or_eq_true, or_assoc]

lemma runChildren_calls (ev : Nat) (g : ChildB → Option MExc)
    (cs : List ChildB) : ∀ (i : Nat) (st : RunSt),
    (runChildren ev g i cs st).calls =
      st.calls ++ (List.range' i cs.length).map (fun j => (ev, j)) := by
  induction cs with
  | nil => intro i st; simp [runChildren]
  | cons c cs ih =>
    intro i st
    show (runChildren ev g (i + 1) cs _).calls = _
    rw [ih, handleExc_calls]
    simp [List.range']

lemma runEvents_inv (cs : List ChildB) (its : List Nat) :
    ∀ (ev : Nat) (st : RunSt), RInv st → RInv (runEvents cs ev its st) := by
  induction its with
  | nil => intro ev st h; exact h
  | cons it its ih =>
    intro ev st h
    exact ih (ev + 1) _ (runChildren_inv _ _ _ _ _ h)

lemma runEvents_errs_mem (cs : List ChildB) (its : List Nat) (x : Nat × Nat) :
    ∀ (ev : Nat) (st : RunSt),
    (x ∈ (runEvents cs ev its st).errs ↔
      x ∈ st.errs ∨
        its.any (fun it => cs.any (fun c => hits (c.onFeed it) x)) = true) := by
  induction its with
  | nil => intro ev st; simp [runEvents]
  | cons it its ih =>
    intro ev st
    show x ∈ (runEvents cs (ev + 1) its _).errs ↔ _
    rw [ih]
    rw [show runEvent cs ev (fun c => c.onFeed it) st =
      runChildren ev (fun c => c.onFeed it) 0 cs st from rfl]
    rw [runChildren_errs_mem]
    simp only [List.any_cons, Bool.or_eq_true, or_assoc]

lemma runEvents_calls (cs : List ChildB) (its : List Nat) :
    ∀ (ev : Nat) (st : RunSt),
    (runEvents cs ev its st).calls =
      st.calls ++ allCallsFrom cs.length ev its.length := by
  induction its with
  | nil => intro ev st; simp [runEvents, allCallsFrom]
  | cons it its ih =>
    intro ev st
    show (runEvents cs (ev + 1) its _).calls = _
    rw [ih]
    rw [show runEvent cs ev (fun c => c.onFeed it) st =
      runChildren ev (fun c => c.onFeed it) 0 cs st from rfl]
    rw [runChildren_calls]
    show _ = st.calls ++ (evCalls cs.length ev ++ _)
    rw [evCalls, List.range_eq_range', List.append_assoc]

lemma countP_eq_of_nodup {α : Type} [DecidableEq α] (l : List α)
    (h : l.Nodup) (x : α) :
    l.countP (fun y => decide (y = x)) = if x ∈ l then 1 else 0 := by
  induction l with
  | nil => simp
  | cons a l ih =>
    rw [List.nodup_cons] at h
    rw [List.countP_cons, ih h.2]
    by_cases hax : a = x
    · subst hax
      simp [h.1]
    · have hxa : ¬ (x = a) := fun hh => hax hh.symm
      simp [hax, hxa, List.mem_cons]

lemma count_of_inv (st : RunSt) (h : RInv st) (x : Nat × Nat) :
    st.reports.countP (fun r => decide ((r.1, r.2.1) = x)) =
      if x ∈ st.errs then 1 else 0 := by
  obtain ⟨h1, h2⟩ := h
  have hc : st.reports.countP (fun r => decide ((r.1, r.2.1) = x)) =
      (st.reports.map (fun r => (r.1, r.2.1))).countP (fun y => decide (y = x)) := by
    rw [List.countP_map]
    rfl
  rw [hc, h1, countP_eq_of_nodup st.errs h2 x]
  by_cases hm : x ∈ st.errs
  · rw [if_pos hm, if_pos hm]
  · rw [if_neg hm, if_neg hm]

/-- C5: within one run of a `CheckRunner` (a `start` followed by the feed of
every item), for every `(package identity, underlying error identity)`
pair, no matter how many times children raise a metadata exception with
that pair, exactly one synthetic `MetadataError` result is reported when
the pair is raised at all (and none otherwise), and every child is invoked
at every event regardless. -/
theorem c5_metadata_dedup (cs : List ChildB) (items : List Nat) (p e : Nat) :
    ((runAll cs items).reports.countP
        (fun r => decide ((r.1, r.2.1) = (p, e))) =
      if (cs.any (fun c => hits c.onStart (p, e))
          || items.any (fun it => cs.any (fun c => hits (c.onFeed it) (p, e))))
          = true
      then 1 else 0)
    ∧ (runAll cs items).calls =
        evCalls cs.length 0 ++ allCallsFrom cs.length 1 items.length := by
  have hrw : runAll cs items =
      runEvents cs 1 items
        (runChildren 0 (fun c => c.onStart) 0 cs ⟨[], [], []⟩) := rfl
  constructor
  · have hinv : RInv (runAll cs items) := by
      rw [hrw]
      apply runEvents_inv
      apply runChildren_inv
      exact ⟨rfl, List.nodup_nil⟩
    rw [count_of_inv _ hinv (p, e)]
    have hiff : (p, e) ∈ (runAll cs items).errs ↔
        (cs.any (fun c => hits c.onStart (p, e))
          || items.any (fun it => cs.any (fun c => hits (c.onFeed it) (p, e))))
          = true := by
      rw [hrw, runEvents_errs_mem, runChildren_errs_mem]
      simp [Bool.or_eq_true]
    by_cases hm : (p, e) ∈ (runAll cs items).errs
    · rw [if_pos hm, if_pos (hiff.mp hm)]
    · rw [if_neg hm, if_neg (fun hb => hm (hiff.mpr hb))]
  · rw [hrw, runEvents_calls, runChildren_calls]
    simp [evCalls, List.range_eq_range']

/-! ## Supporting lemmas for the UnstableOnly claim -/

lemma assocAppend_keys (acc : List (List PkgR × List String)) (u : List PkgR)
    (a : String) :
    (assocAppend acc u a).map (fun g => g.1) =
      if u ∈ acc.map (fun g => g.1) then acc.map (fun g => g.1)
      else acc.map (fun g => g.1) ++ [u] := by
  induction acc with
  | nil => simp [assocAppend]
  | cons g rest ih =>
    obtain ⟨k, ar⟩ := g
    show (if k = u then _ else _  : List (List PkgR × List String)).map _ = _
    by_cases hk : k = u
    · subst hk
      simp
    · rw [if_neg hk]
      have hku : ¬ (u = k) := fun hh => hk hh.symm
      simp only [List.map_cons, List.mem_cons, hku, false_or, ih]
      by_cases hu : u ∈ rest.map (fun g => g.1)
      · rw [if_pos hu, if_pos hu]
      · rw [if_neg hu, if_neg hu]
        simp

lemma assocAppend_mem_cases (acc : List (List PkgR × List String))
    (u : List PkgR) (a : String) (hN : (acc.map (fun g => g.1)).Nodup)
    (g : List PkgR × List String) (hg : g ∈ assocAppend acc u a) :
    (g ∈ acc ∧ g.1 ≠ u)
    ∨ (∃ ar, (u, ar) ∈ acc ∧ g = (u, ar ++ [a]))
    ∨ (u ∉ acc.map (fun g => g.1) ∧ g = (u, [a])) := by
  induction acc with
  | nil =>
    simp only [assocAppend, List.mem_singleton] at hg
    exact Or.inr (Or.inr ⟨by simp, hg⟩)
  | cons g0 rest ih =>
    obtain ⟨k, ar⟩ := g0
    rw [List.map_cons, List.nodup_cons] at hN
    by_cases hk : k = u
    · subst hk
      rw [show assocAppend ((k, ar) :: rest) k a = (k, ar ++ [a]) :: rest
        from by simp [assocAppend]] at hg
      rcases List.mem_cons.mp hg with hg | hg
      · exact Or.inr (Or.inl ⟨ar, by simp, hg⟩)
      · refine Or.inl ⟨List.mem_cons_of_mem _ hg, ?_⟩
        intro hgu
        exact hN.1 (hgu ▸ List.mem_map_of_mem (fun g => g.1) hg)
    · rw [show assocAppend ((k, ar) :: rest) u a = (k, ar) :: assocAppend rest u a
        from by simp [assocAppend, hk]] at hg
      rcases List.mem_cons.mp hg with hg | hg
      · exact Or.inl ⟨by simp [hg], by simp [hg, hk]⟩
      · rcases ih hN.2 hg with h | h | h
        · exact Or.inl ⟨List.mem_cons_of_mem _ h.1, h.2⟩
        · obtain ⟨ar2, har2, hgr2⟩ := h
          exact Or.inr (Or.inl ⟨ar2, List.mem_cons_of_mem _ har2, hgr2⟩)
        · refine Or.inr (Or.inr ⟨?_, h.2⟩)
          simp only [List.map_cons, List.mem_cons, not_or]
          exact ⟨fun hh => hk hh.symm, h.1⟩

lemma assocAppend_mem_keep (acc : List (List PkgR × List String))
    (u : List PkgR) (a : String) (g : List PkgR × List String)
    (hg : g ∈ acc) (hne : g.1 ≠ u) : g ∈ assocAppend acc u a := by
  induction acc with
  | nil => cases hg
  | cons g0 rest ih =>
    obtain ⟨k, ar⟩ := g0
    by_cases hk : k = u
    · subst hk
      rw [show assocAppend ((k, ar) :: rest) k a = (k, ar ++ [a]) :: rest
        from by simp [assocAppend]]
      rcases List.mem_cons.mp hg with hg | hg
      · exact absurd (by simp [hg]) hne
      · exact List.mem_cons_of_mem _ hg
    · rw [show assocAppend ((k, ar) :: rest) u a = (k, ar) :: assocAppend rest u a
        from by simp [assocAppend, hk]]
      rcases List.mem_cons.mp hg with hg | hg
      · exact hg ▸ List.mem_cons_self _ _
      · exact List.mem_cons_of_mem _ (ih hg)

lemma assocAppend_mem_update (acc : List (List PkgR × List String))
    (u : List PkgR) (a : String) (hN : (acc.map (fun g => g.1)).Nodup)
    (ar : List String) (hg : (u, ar) ∈ acc) :
    (u, ar ++ [a]) ∈ assocAppend acc u a := by
  induction acc with
  | nil => cases hg
  | cons g0 rest ih =>
    obtain ⟨k, ar0⟩ := g0
    rw [List.map_cons, List.nodup_cons] at hN
    by_cases hk : k = u
    · subst hk
      rw [show assocAppend ((k, ar0) :: rest) k a = (k, ar0 ++ [a]) :: rest
        from by simp [assocAppend]]
      rcases List.mem_cons.mp hg with hg | hg
      · have h2 : ar = ar0 := ((Prod.mk.injEq _ _ _ _).mp hg).2
        rw [h2]
        exact List.mem_cons_self _ _
      · exact absurd (List.mem_map_of_mem (fun g => g.1) hg) hN.1
    · rw [show assocAppend ((k, ar0) :: rest) u a = (k, ar0) :: assocAppend rest u a
        from by simp [assocAppend, hk]]
      rcases List.mem_cons.mp hg with hg | hg
      · exact absurd ((Prod.mk.injEq _ _ _ _).mp hg).1.symm hk
      · exact List.mem_cons_of_mem _ (ih hN.2 hg)

lemma assocAppend_mem_new (acc : List (List PkgR × List String))
    (u : List PkgR) (a : String) (hu : u ∉ acc.map (fun g => g.1)) :
    (u, [a]) ∈ assocAppend acc u a := by
  induction acc with
  | nil => simp [assocAppend]
  | cons g0 rest ih =>
    obtain ⟨k, ar⟩ := g0
    rw [List.map_cons, List.mem_cons, not_or] at hu
    have hk : ¬ (k = u) := fun hh => hu.1 hh.symm
    rw [show assocAppend ((k, ar) :: rest) u a = (k, ar) :: assocAppend rest u a
      from by simp [assocAppend, hk]]
    exact List.mem_cons_of_mem _ (ih hu.2)

lemma uoStep_inv (pkgset : List PkgR) (pref : List String)
    (acc : List (List PkgR × List String)) (a : String)
    (h : GInv pkgset pref acc) : GInv pkgset (pref ++ [a]) (uoStep pkgset acc a) := by
  obtain ⟨hN, hE, hM, hX⟩ := h
  unfold uoStep
  by_cases hskip : uoSkip pkgset a
  · rw [if_pos hskip]
    refine ⟨hN, hE, ?_, ?_⟩
    · intro g hg x
      rw [hM g hg x]
      simp only [List.mem_append, List.mem_singleton]
      constructor
      · rintro ⟨h1, h2, h3⟩; exact ⟨Or.inl h1, h2, h3⟩
      · rintro ⟨h1 | h1, h2, h3⟩
        · exact ⟨h1, h2, h3⟩
        · exact absurd hskip (h1 ▸ h2)
    · intro b hb h1 h2
      rcases List.mem_append.mp hb with hb | hb
      · exact hX b hb h1 h2
      · rw [List.mem_singleton] at hb
        exact absurd hskip (hb ▸ h1)
  · rw [if_neg hskip]
    by_cases hemp : uoU pkgset a = []
    · rw [if_pos hemp]
      refine ⟨hN, hE, ?_, ?_⟩
      · intro g hg x
        rw [hM g hg x]
        simp only [List.mem_append, List.mem_singleton]
        constructor
        · rintro ⟨h1, h2, h3⟩; exact ⟨Or.inl h1, h2, h3⟩
        · rintro ⟨h1 | h1, h2, h3⟩
          · exact ⟨h1, h2, h3⟩
          · exfalso
            rw [h1, hemp] at h3
            exact hE g hg h3.symm
      · intro b hb h1 h2
        rcases List.mem_append.mp hb with hb | hb
        · exact hX b hb h1 h2
        · rw [List.mem_singleton] at hb
          exact absurd (hb ▸ hemp) h2
    · rw [if_neg hemp]
      refine ⟨?_, ?_, ?_, ?_⟩
      · rw [assocAppend_keys]
        by_cases hu : uoU pkgset a ∈ acc.map (fun g => g.1)
        · rw [if_pos hu]; exact hN
        · rw [if_neg hu]
          simp only [List.nodup_append, List.nodup_singleton]
          exact ⟨hN, True.intro, by simpa using fun hu' => hu hu'⟩
      · intro g hg
        rcases assocAppend_mem_cases acc _ a hN g hg with h | ⟨ar, _, hgr⟩ | ⟨_, hgr⟩
        · exact hE g h.1
        · rw [hgr]; exact hemp
        · rw [hgr]; exact hemp
      · intro g hg x
        rcases assocAppend_mem_cases acc _ a hN g hg with h | ⟨ar, har, hgr⟩ | ⟨hu, hgr⟩
        · rw [hM g h.1 x]
          simp only [List.mem_append, List.mem_singleton]
          constructor
          · rintro ⟨h1, h2, h3⟩; exact ⟨Or.inl h1, h2, h3⟩
          · rintro ⟨h1 | h1, h2, h3⟩
            · exact ⟨h1, h2, h3⟩
            · exfalso
              rw [h1] at h3
              exact h.2 h3.symm
        · have hold := hM (uoU pkgset a, ar) har
          rw [hgr]
          simp only [List.mem_append, List.mem_singleton]
          constructor
          · rintro (h1 | h1)
            · obtain ⟨ha1, ha2, ha3⟩ := (hold x).mp h1
              exact ⟨Or.inl ha1, ha2, ha3⟩
            · exact ⟨Or.inr h1, h1 ▸ hskip, h1 ▸ rfl⟩
          · rintro ⟨h1 | h1, h2, h3⟩
            · exact Or.inl ((hold x).mpr ⟨h1, h2, h3⟩)
            · exact Or.inr h1
        · rw [hgr]
          simp only [List.mem_append, List.mem_singleton]
          constructor
          · rintro h1
            exact ⟨Or.inr h1, h1 ▸ hskip, h1 ▸ rfl⟩
          · rintro ⟨h1 | h1, h2, h3⟩
            · exfalso
              obtain ⟨g0, hg0, hg0k⟩ := hX x h1 h2 (by rw [h3]; exact hemp)
              apply hu
              rw [← h3, ← hg0k]
              exact List.mem_map_of_mem (fun g => g.1) hg0
            · exact h1
      · intro b hb h1 h2
        rcases List.mem_append.mp hb with hb | hb
        · obtain ⟨g0, hg0, hg0k⟩ := hX b hb h1 h2
          by_cases hgk : g0.1 = uoU pkgset a
          · refine ⟨(uoU pkgset a, g0.2 ++ [a]), ?_, ?_⟩
            · exact assocAppend_mem_update acc _ a hN g0.2
                (by rw [← hgk]; exact hg0)
            · show uoU pkgset a = uoU pkgset b
              rw [← hgk, hg0k]
          · exact ⟨g0, assocAppend_mem_keep acc _ a g0 hg0 hgk, hg0k⟩
        · rw [List.mem_singleton] at hb
          subst hb
          by_cases hu : uoU pkgset b ∈ acc.map (fun g => g.1)
          · rcases List.mem_map.mp hu with ⟨g0, hg0, hg0k⟩
            refine ⟨(uoU pkgset b, g0.2 ++ [b]), ?_, rfl⟩
            exact assocAppend_mem_update acc _ b hN g0.2
              (by rw [← hg0k]; exact (show (g0.1, g0.2) ∈ acc from hg0))
          · exact ⟨(uoU pkgset b, [b]), assocAppend_mem_new acc _ b hu, rfl⟩

lemma uoGroups_fold (pkgset : List PkgR) :
    ∀ (rest pref : List String) (acc : List (List PkgR × List String)),
    GInv pkgset pref acc →
    GInv pkgset (pref ++ rest) (rest.foldl (uoStep pkgset) acc) := by
  intro rest
  induction rest with
  | nil => intro pref acc h; simpa using h
  | cons a rest ih =>
    intro pref acc h
    have := ih (pref ++ [a]) (uoStep pkgset acc a) (uoStep_inv pkgset pref acc a h)
    simpa using this

lemma uoGroups_inv (arches : List String) (pkgset : List PkgR) :
    GInv pkgset arches (uoGroups arches pkgset) := by
  have h0 : GInv pkgset [] [] := by
    refine ⟨List.nodup_nil, ?_, ?_, ?_⟩
    · intro g hg; cases hg
    · intro g hg; cases hg
    · intro b hb; cases hb
  have := uoGroups_fold pkgset arches [] [] h0
  simpa [uoGroups, uoStep] using this

/-- C8: for every package set fed to `UnstableOnlyReport` and every
configured stable arch `a`: if some version is stably keyworded `a`, no
result involves `a`; otherwise, when the versions keyworded `~a` form a
non-empty tuple, exactly one group carries that tuple and its result lists
exactly the arches sharing it. -/
theorem c8_unstable_only (arches : List String) (pkgset : List PkgR)
    (a : String) (ha : a ∈ arches) :
    (uoSkip pkgset a → ∀ r ∈ uoFeed arches pkgset, a ∉ r.arches)
    ∧ (¬ uoSkip pkgset a → uoU pkgset a ≠ [] →
        ((uoGroups arches pkgset).countP
            (fun g => decide (g.1 = uoU pkgset a)) = 1
          ∧ ∃ r ∈ uoFeed arches pkgset,
              r.versions = (uoU pkgset a).map (fun x => x.fullver)
              ∧ ∀ x, x ∈ r.arches ↔
                  (x ∈ arches ∧ ¬ uoSkip pkgset x
                    ∧ uoU pkgset x = uoU pkgset a))) := by
  obtain ⟨hN, hE, hM, hX⟩ := uoGroups_inv arches pkgset
  have harch : ∀ g : List PkgR × List String, (uoMk g).arches = g.2 := by
    intro g
    unfold uoMk
    cases g.1 with
    | nil => rfl
    | cons p rest => rfl
  constructor
  · intro hskip r hr hmem
    rcases List.mem_map.mp hr with ⟨g, hg, hgr⟩
    rw [← hgr, harch g] at hmem
    exact ((hM g hg a).mp hmem).2.1 hskip
  · intro hskip hne
    obtain ⟨g, hg, hgk⟩ := hX a ha hskip hne
    constructor
    · have hcount : (uoGroups arches pkgset).countP
          (fun g => decide (g.1 = uoU pkgset a)) =
          ((uoGroups arches pkgset).map (fun g => g.1)).countP
            (fun k => decide (k = uoU pkgset a)) := by
        rw [List.countP_map]
        rfl
      rw [hcount, countP_eq_of_nodup _ hN]
      rw [if_pos (hgk ▸ List.mem_map_of_mem (fun g => g.1) hg)]
    · refine ⟨uoMk g, List.mem_map_of_mem _ hg, ?_, ?_⟩
      · unfold uoMk
        cases hh : g.1 with
        | nil => exact absurd hh (hE g hg)
        | cons p rest => simp [hh, ← hgk]
      · intro x
        rw [harch g, hM g hg x, hgk]

/-- Witness for C8: the UnstableOnly-A scenario — `a/b-1` and `a/b-2` both
keyworded `~amd64 ~x86` with stable arches `{amd64, x86}` — instantiated at
arch `amd64`. -/
theorem c8_unstable_only_witness :
    (uoSkip [⟨"a", "b", "1", "0", ["~amd64", "~x86"], false⟩,
             ⟨"a", "b", "2", "0", ["~amd64", "~x86"], false⟩] "amd64" →
      ∀ r ∈ uoFeed ["amd64", "x86"]
          [⟨"a", "b", "1", "0", ["~amd64", "~x86"], false⟩,
           ⟨"a", "b", "2", "0", ["~amd64", "~x86"], false⟩],
        "amd64" ∉ r.arches)
    ∧ (¬ uoSkip [⟨"a", "b", "1", "0", ["~amd64", "~x86"], false⟩,
                 ⟨"a", "b", "2", "0", ["~amd64", "~x86"], false⟩] "amd64" →
        uoU [⟨"a", "b", "1", "0", ["~amd64", "~x86"], false⟩,
             ⟨"a", "b", "2", "0", ["~amd64", "~x86"], false⟩] "amd64" ≠ [] →
        ((uoGroups ["amd64", "x86"]
            [⟨"a", "b", "1", "0", ["~amd64", "~x86"], false⟩,
             ⟨"a", "b", "2", "0", ["~amd64", "~x86"], false⟩]).countP
            (fun g => decide (g.1 =
              uoU [⟨"a", "b", "1", "0", ["~amd64", "~x86"], false⟩,
                   ⟨"a", "b", "2", "0", ["~amd64", "~x86"], false⟩] "amd64")) = 1
          ∧ ∃ r ∈ uoFeed ["amd64", "x86"]
              [⟨"a", "b", "1", "0", ["~amd64", "~x86"], false⟩,
               ⟨"a", "b", "2", "0", ["~amd64", "~x86"], false⟩],
              r.versions = (uoU [⟨"a", "b", "1", "0", ["~amd64", "~x86"], false⟩,
                  ⟨"a", "b", "2", "0", ["~amd64", "~x86"], false⟩] "amd64").map
                  (fun x => x.fullver)
              ∧ ∀ x, x ∈ r.arches ↔
                  (x ∈ ["amd64", "x86"]
                    ∧ ¬ uoSkip [⟨"a", "b", "1", "0", ["~amd64", "~x86"], false⟩,
                        ⟨"a", "b", "2", "0", ["~amd64", "~x86"], false⟩] x
                    ∧ uoU [⟨"a", "b", "1", "0", ["~amd64", "~x86"], false⟩,
                        ⟨"a", "b", "2", "0", ["~amd64", "~x86"], false⟩] x =
                      uoU [⟨"a", "b", "1", "0", ["~amd64", "~x86"], false⟩,
                          ⟨"a", "b", "2", "0", ["~amd64", "~x86"], false⟩] "amd64"))) :=
  c8_unstable_only ["amd64", "x86"]
    [⟨"a", "b", "1", "0", ["~amd64", "~x86"], false⟩,
     ⟨"a", "b", "2", "0", ["~amd64", "~x86"], false⟩] "amd64" (by decide)

/-! ## Supporting lemmas for the serialization claims -/

lemma getstateAux_spec {V : Type} (obj : String → Option V) :
    ∀ (ks : List String) (d : List (String × V)),
      getstateAux obj ks = some d →
      d.map (fun e => e.1) = ks ∧ ∀ e ∈ d, obj e.1 = some e.2 := by
  intro ks
  induction ks with
  | nil =>
    intro d h
    simp only [getstateAux] at h
    cases h
    simp
  | cons k ks ih =>
    intro d h
    simp only [getstateAux] at h
    cases hk : obj k with
    | none => rw [hk] at h; cases h
    | some v =>
      rw [hk] at h
      cases hrest : getstateAux obj ks with
      | none => rw [hrest] at h; cases h
      | some d' =>
        rw [hrest] at h
        cases h
        obtain ⟨h1, h2⟩ := ih d' hrest
        constructor
        · simp [h1]
        · intro e he
          rcases List.mem_cons.mp he with he | he
          · subst he; exact hk
          · exact h2 e he

lemma find_of_mem_keys {V : Type} (d : List (String × V)) (obj : String → Option V)
    (hall : ∀ e ∈ d, obj e.1 = some e.2) (k : String)
    (hk : k ∈ d.map (fun e => e.1)) :
    ∃ e, d.find? (fun e => e.1 = k) = some e ∧ obj k = some e.2 := by
  induction d with
  | nil => simp at hk
  | cons e d ih =>
    by_cases he : e.1 = k
    · refine ⟨e, ?_, ?_⟩
      · simp [List.find?, he]
      · rw [← he]; exact hall e (by simp)
    · have hk' : k ∈ d.map (fun e => e.1) := by
        rcases List.mem_map.mp hk with ⟨e', he', hke'⟩
        rcases List.mem_cons.mp he' with h | h
        · exact absurd (h ▸ hke') he
        · exact List.mem_map.mpr ⟨e', h, hke'⟩
      obtain ⟨e', hf, ho⟩ := ih (fun x hx => hall x (List.mem_cons_of_mem _ hx)) hk'
      refine ⟨e', ?_, ho⟩
      simp [List.find?, he, hf]

/-! ## Claim theorems: pattern filter and serialization -/

/-- C6: the check-name pattern filter maps `("foo", "a.foo.b")` to true,
`("foo", "a.foobar")` to false, `("foo.*", "a.foobar")` to false and
`("foo.*", "foobar")` to true, and for every token the result depends only
on the case-lowered target (matching is case-insensitive). -/
theorem c6_pattern_filter :
    convert_check_filter "foo" "a.foo.b" = true ∧
    convert_check_filter "foo" "a.foobar" = false ∧
    convert_check_filter "foo.*" "a.foobar" = false ∧
    convert_check_filter "foo.*" "foobar" = true ∧
    ∀ tok name1 name2 : String,
      lowerStr name1.data = lowerStr name2.data →
      convert_check_filter tok name1 = convert_check_filter tok name2 := by
  refine ⟨by decide, by decide, by decide, by decide, ?_⟩
  intro tok name1 name2 h
  unfold convert_check_filter checkFilterL
  rw [h]

/-- Witness for C6: the case-insensitivity clause applied at token `foo`
and targets `A.Foo.B` / `a.foo.b`. -/
theorem c6_pattern_filter_witness :
    lowerStr "A.Foo.B".data = lowerStr "a.foo.b".data ∧
    convert_check_filter "foo" "A.Foo.B" = convert_check_filter "foo" "a.foo.b" :=
  ⟨by decide, c6_pattern_filter.2.2.2.2 "foo" "A.Foo.B" "a.foo.b" (by decide)⟩

/-- C7: feeding `RedundantVersionReport` the package set `a/b` with versions
`1` and `2`, both with KEYWORDS `amd64`, both in slot `0` and neither live,
emits exactly one result, with version `1`, `later_versions = ("2",)` and
slot `0`. -/
theorem c7_redundant_version :
    rvFeed [⟨"a", "b", "1", "0", ["amd64"], false⟩,
            ⟨"a", "b", "2", "0", ["amd64"], false⟩]
      = [⟨"a", "b", "1", "0", ["2"]⟩] := by
  decide

/-- C9: serializing a result through `__getstate__` and restoring the state
into a fresh instance of the same kind with `__setstate__` succeeds and
reproduces every declared persisted attribute of the original. -/
theorem c9_roundtrip {V : Type} (attrs : List String)
    (obj fresh : String → Option V) (d : List (String × V))
    (hne : attrs ≠ []) (hnd : attrs.Nodup)
    (h : getstate attrs obj = some d) :
    ∃ r, setstate attrs fresh d = some r ∧ ∀ k ∈ attrs, r k = obj k := by
  unfold getstate at h
  rw [if_neg hne] at h
  obtain ⟨hkeys, hall⟩ := getstateAux_spec obj attrs d h
  have hlen : d.length = attrs.length := by
    rw [← hkeys, List.length_map]
  have hcond : ¬ ((∃ k ∈ attrs, k ∉ d.map (fun e => e.1))
      ∨ attrs.dedup.length ≠ d.length) := by
    push_neg
    constructor
    · intro k hk
      rw [hkeys]
      exact hk
    · rw [List.dedup_eq_self.mpr hnd, hlen]
  refine ⟨fun k =>
      match d.find? (fun e => e.1 = k) with
      | some e => some e.2
      | none => fresh k, ?_, ?_⟩
  · unfold setstate
    rw [if_neg hcond]
  · intro k hk
    obtain ⟨e, hf, ho⟩ := find_of_mem_keys d obj hall k (hkeys ▸ hk)
    simp only [hf, ho]

/-- Witness for C9: a one-attribute result kind round-trips through
state extraction and restoration. -/
theorem c9_roundtrip_witness :
    ∃ r, setstate ["category"] (fun _ => (none : Option Nat)) [("category", 1)]
        = some r ∧ ∀ k ∈ ["category"], r k = (fun k =>
          if k = "category" then some 1 else none) k :=
  c9_roundtrip ["category"] (fun k => if k = "category" then some 1 else none)
    (fun _ => none) [("category", 1)] (by decide) (by decide) (by decide)

/-- C10: restoring a state dictionary succeeds exactly when its key set
equals the declared attribute set; a missing declared attribute or an extra
key raises `TypeError` (modelled as `none`, with nothing assigned). -/
theorem c10_setstate_exact {V : Type} (attrs : List String)
    (obj : String → Option V) (data : List (String × V))
    (h1 : attrs.Nodup) (h2 : (data.map (fun e => e.1)).Nodup) :
    (setstate attrs obj data).isSome = true ↔
      (∀ k, k ∈ data.map (fun e => e.1) ↔ k ∈ attrs) := by
  unfold setstate
  have hdl : data.length = (data.map (fun e => e.1)).length := by
    rw [List.length_map]
  rw [List.dedup_eq_self.mpr h1]
  by_cases hc : (∃ k ∈ attrs, k ∉ data.map (fun e => e.1))
      ∨ attrs.length ≠ data.length
  · rw [if_pos hc]
    simp only [Option.isSome_none, Bool.false_eq_true, false_iff]
    intro hmem
    rcases hc with ⟨k, hk, hkc⟩ | hc
    · exact hkc ((hmem k).mpr hk)
    · have hsub1 : attrs ⊆ data.map (fun e => e.1) := fun k hk =>
        (hmem k).mpr hk
      have hsub2 : data.map (fun e => e.1) ⊆ attrs := fun k hk =>
        (hmem k).mp hk
      have hp1 := (List.subperm_of_subset h1 hsub1).length_le
      have hp2 := (List.subperm_of_subset h2 hsub2).length_le
      rw [← hdl] at hp1 hp2
      exact hc (Nat.le_antisymm hp1 hp2)
  · rw [if_neg hc]
    simp only [Option.isSome_some, true_iff]
    push_neg at hc
    obtain ⟨hany, hlen⟩ := hc
    have hsub : attrs ⊆ data.map (fun e => e.1) := fun k hk => hany k hk
    have hperm : attrs.Perm (data.map (fun e => e.1)) := by
      refine (List.subperm_of_subset h1 hsub).perm_of_length_le ?_
      omega
    intro k
    exact (hperm.mem_iff).symm

/-- Witness for C10: a matching singleton state dictionary restores. -/
theorem c10_setstate_exact_witness :
    (setstate ["a"] (fun _ => (none : Option Nat)) [("a", 1)]).isSome = true ↔
      (∀ k, k ∈ ([("a", (1 : Nat))].map (fun e => e.1)) ↔ k ∈ ["a"]) :=
  c10_setstate_exact ["a"] (fun _ => none) [("a", 1)] (by decide) (by decide)

lemma mem_insPr (x z : Sink) : ∀ l, z ∈ insPr x l ↔ z = x ∨ z ∈ l := by
  intro l
  induction l with
  | nil => simp [insPr]
  | cons y ys ih =>
    by_cases h : y.priority ≤ x.priority
    · rw [show insPr x (y :: ys) = y :: insPr x ys from by simp [insPr, h]]
      simp only [List.mem_cons, ih]
      tauto
    · rw [show insPr x (y :: ys) = x :: y :: ys from by simp [insPr, h]]
      simp only [List.mem_cons]

lemma insPr_sorted (x : Sink) : ∀ l, l.Sorted ple → (insPr x l).Sorted ple := by
  intro l
  induction l with
  | nil => intro _; exact List.sorted_singleton x
  | cons y ys ih =>
    intro hs
    rw [List.sorted_cons] at hs
    by_cases h : y.priority ≤ x.priority
    · rw [show insPr x (y :: ys) = y :: insPr x ys from by simp [insPr, h]]
      rw [List.sorted_cons]
      refine ⟨?_, ih hs.2⟩
      intro z hz
      rcases (mem_insPr x z ys).mp hz with hz | hz
      · subst hz; exact h
      · exact hs.1 z hz
    · rw [show insPr x (y :: ys) = x :: y :: ys from by simp [insPr, h]]
      rw [List.sorted_cons]
      refine ⟨?_, by rw [List.sorted_cons]; exact hs⟩
      intro z hz
      have hxy : ple x y := le_of_not_le h
      rcases List.mem_cons.mp hz with hz | hz
      · subst hz; exact hxy
      · exact le_trans hxy (hs.1 z hz)

lemma sortSinks_sorted (l : List Sink) : (sortSinks l).Sorted ple := by
  have h : ∀ (l : List Sink) (acc : List Sink), acc.Sorted ple →
      (l.foldl (fun acc x => insPr x acc) acc).Sorted ple := by
    intro l
    induction l with
    | nil => intro acc h; exact h
    | cons x xs ih => intro acc h; exact ih _ (insPr_sorted x acc h)
  exact h l [] (by simp [List.Sorted])

lemma consumeFromEnd_spec (p : Sink → Bool) :
    ∀ l, consumeFromEnd p l = ((l.filter p).reverse, l.filter (fun a => !(p a))) := by
  intro l
  induction l with
  | nil => rfl
  | cons sk rest ih =>
    show (let r := consumeFromEnd p rest;
      if p sk then (r.1 ++ [sk], r.2) else (r.1, sk :: r.2)) = _
    rw [ih]
    by_cases h : p sk
    · simp [h, List.filter_cons]
    · simp [h, List.filter_cons]

lemma buildKids_sorted
    (rec : FT → List Sink → Option (List (List Sink) × List Sink))
    (hrec : ∀ ft pool, pool.Sorted ple → ∀ r, rec ft pool = some r →
      (∀ ns ∈ r.1, ns.Sorted gpe) ∧ r.2.Sorted ple) :
    ∀ (l : List Tr) (pool : List Sink), pool.Sorted ple →
      ∀ r, buildKids rec l pool = some r →
        (∀ ns ∈ r.1, ns.Sorted gpe) ∧ r.2.Sorted ple := by
  intro l
  induction l with
  | nil =>
    intro pool hp r h
    cases h
    exact ⟨fun ns hns => absurd hns (List.not_mem_nil ns), hp⟩
  | cons t rest ih =>
    intro pool hp r h
    simp only [buildKids] at h
    cases h1 : rec t.dest pool with
    | none => simp only [h1] at h; cases h
    | some r1 =>
      simp only [h1] at h
      obtain ⟨hr1a, hr1b⟩ := hrec t.dest pool hp r1 h1
      cases h2 : buildKids rec rest r1.2 with
      | none => simp only [h2] at h; cases h
      | some r2 =>
        simp only [h2, Option.some.injEq] at h
        obtain ⟨hr2a, hr2b⟩ := ih r1.2 hr1b r2 h2
        subst h
        refine ⟨?_, hr2b⟩
        intro ns hns
        rcases List.mem_append.mp hns with hns | hns
        · exact hr1a ns hns
        · exact hr2a ns hns

lemma buildT_sorted (inp : Inp) :
    ∀ (fuel : Nat) (scope : Nat) (ts : Finset Tr) (ft : FT) (pool : List Sink),
      pool.Sorted ple → ∀ r, buildT inp fuel scope ts ft pool = some r →
        (∀ ns ∈ r.1, ns.Sorted gpe) ∧ r.2.Sorted ple := by
  intro fuel
  induction fuel with
  | zero => intro _ _ _ _ _ r h; cases h
  | succ fuel ih =>
    intro scope ts ft pool hp r h
    simp only [buildT] at h
    cases h1 : buildKids (fun ft2 pool2 => buildT inp fuel scope ts ft2 pool2)
        (inp.transforms.filter (fun t =>
          decide (t ∈ ts) && decide (t.source = ft) && decide (t.scope ≤ scope)))
        pool with
    | none => simp only [h1] at h; cases h
    | some r1 =>
      simp only [h1, Option.some.injEq] at h
      obtain ⟨hr1a, hr1b⟩ := buildKids_sorted _
        (fun ft2 pool2 hs r2 h2 => ih scope ts ft2 pool2 hs r2 h2) _ pool hp r1 h1
      rw [consumeFromEnd_spec] at h
      subst h
      constructor
      · intro ns hns
        rcases List.mem_append.mp hns with hns | hns
        · exact hr1a ns hns
        · rw [List.mem_singleton] at hns
          subst hns
          have hf : (r1.2.filter (fun sk =>
              decide (sk.feed_type = ft) && decide (sk.scope ≤ scope))).Sorted ple :=
            hr1b.sublist (List.filter_sublist r1.2)
          exact (List.pairwise_reverse).mpr hf
      · exact hr1b.sublist (List.filter_sublist r1.2)

lemma buildPlans_sorted (inp : Inp) (fuel : Nat) :
    ∀ (plans : List (Source × Finset Tr)) (pool : List Sink),
      pool.Sorted ple → ∀ r, buildPlans inp fuel plans pool = some r →
        ∀ pr ∈ r.1, ∀ ns ∈ pr.2, ns.Sorted gpe := by
  intro plans
  induction plans with
  | nil =>
    intro pool hp r h
    cases h
    intro pr hpr
    cases hpr
  | cons sts rest ih =>
    intro pool hp r h
    simp only [buildPlans] at h
    cases h1 : buildT inp fuel sts.1.scope sts.2 sts.1.feed_type pool with
    | none => simp only [h1] at h; cases h
    | some r1 =>
      simp only [h1] at h
      obtain ⟨hr1a, hr1b⟩ :=
        buildT_sorted inp fuel sts.1.scope sts.2 sts.1.feed_type pool hp r1 h1
      cases h2 : buildPlans inp fuel rest r1.2 with
      | none => simp only [h2] at h; cases h
      | some r2 =>
        simp only [h2, Option.some.injEq] at h
        subst h
        intro pr hpr
        rcases List.mem_cons.mp hpr with hpr | hpr
        · subst hpr
          exact hr1a
        · exact ih r1.2 hr1b r2 h2 pr hpr

/-! ## Claim theorems about the planner: C1 (ordering) and the concrete
counterexamples for C1-C4 -/

/-- C1 (amended): in every pipeline the planner builds, the sinks fed by
one `CheckRunner` node are in descending (non-increasing) priority order —
`build_transform` appends sinks while walking the ascending-sorted pool
from its end, so invocation order is the reverse of the stable ascending
sort, not ascending as claimed. -/
theorem c1_descending (inp : Inp) (oracle : Nat → Nat) (fuel : Nat)
    (bad : List Sink) (built : List (Source × List (List Sink)))
    (h : plugFull inp oracle fuel = some (bad, built)) :
    ∀ pr ∈ built, ∀ ns ∈ pr.2,
      ns.Sorted (fun a b : Sink => b.priority ≤ a.priority) := by
  unfold plugFull at h
  cases h1 : plugPlans inp oracle fuel with
  | none => simp only [h1] at h; cases h
  | some r =>
    simp only [h1] at h
    cases h2 : buildPlans inp fuel r.2.1 (sortSinks r.2.2) with
    | none => simp only [h2] at h; cases h
    | some b =>
      simp only [h2] at h
      cases hb : b.2 with
      | cons x xs => simp only [hb] at h; cases h
      | nil =>
        simp only [hb, Option.some.injEq, Prod.mk.injEq] at h
        obtain ⟨hbad, hbuilt⟩ := h
        subst hbuilt
        exact buildPlans_sorted inp fuel r.2.1 (sortSinks r.2.2)
          (sortSinks_sorted r.2.2) b h2

/-- Witness for C1's amended theorem: the two-sink input evaluated
concretely. -/
theorem c1_descending_witness :
    List.Sorted (fun a b : Sink => b.priority ≤ a.priority)
      [(⟨1, FT.pkg, 0, 1⟩ : Sink), ⟨0, FT.pkg, 0, 0⟩] :=
  c1_descending ⟨[⟨0, FT.pkg, 0, 0⟩, ⟨1, FT.pkg, 0, 1⟩], [], [⟨0, FT.pkg, 0, 0⟩]⟩
    (fun _ => 0) 60 []
    [((⟨0, FT.pkg, 0, 0⟩ : Source),
      [[(⟨1, FT.pkg, 0, 1⟩ : Sink), ⟨0, FT.pkg, 0, 0⟩]])]
    (by decide)
    ((⟨0, FT.pkg, 0, 0⟩ : Source),
      [[(⟨1, FT.pkg, 0, 1⟩ : Sink), ⟨0, FT.pkg, 0, 0⟩]])
    (by decide) [(⟨1, FT.pkg, 0, 1⟩ : Sink), ⟨0, FT.pkg, 0, 0⟩] (by decide)

/-- Counterexample for C1 as stated: with two sinks of priorities 0 and 1
on the same feed type, the constructed runner feeds the priority-1 sink
first — the invocation order is not ascending in priority. -/
theorem c1_counterexample :
    plugFull ⟨[⟨0, FT.pkg, 0, 0⟩, ⟨1, FT.pkg, 0, 1⟩], [], [⟨0, FT.pkg, 0, 0⟩]⟩
        (fun _ => 0) 60
      = some ([], [(⟨0, FT.pkg, 0, 0⟩, [[⟨1, FT.pkg, 0, 1⟩, ⟨0, FT.pkg, 0, 0⟩]])])
    ∧ ¬ List.Sorted (fun a b : Sink => a.priority ≤ b.priority)
        [⟨1, FT.pkg, 0, 1⟩, ⟨0, FT.pkg, 0, 0⟩] :=
  ⟨by decide, by decide⟩

/-- Counterexample for C2 as stated: the planner prefers a single pipeline
(source cost 0 plus a cost-100 transform) although the two-pipe plan
`[(S1, ∅), (S2, ∅)]` is a valid alternative covering both good sinks at
total cost 0 — so `cost(chosen) ≤ cost(P')` fails for a multi-pipeline
alternative. -/
theorem c2_counterexample :
    plugPlans ⟨[⟨0, FT.ver, 0, 0⟩, ⟨1, FT.pkg, 0, 0⟩],
               [⟨0, FT.ver, FT.pkg, 0, 100⟩],
               [⟨0, FT.ver, 0, 0⟩, ⟨1, FT.pkg, 0, 0⟩]⟩ (fun _ => 0) 60
      = some ([], [(⟨0, FT.ver, 0, 0⟩, {⟨0, FT.ver, FT.pkg, 0, 100⟩})],
              [⟨0, FT.ver, 0, 0⟩, ⟨1, FT.pkg, 0, 0⟩])
    ∧ planCost [(⟨0, FT.ver, 0, 0⟩, {⟨0, FT.ver, FT.pkg, 0, 100⟩})] = 100
    ∧ ((⟨0, FT.ver, 0, 0⟩ : Source) ∈
        [(⟨0, FT.ver, 0, 0⟩ : Source), ⟨1, FT.pkg, 0, 0⟩]
      ∧ (⟨1, FT.pkg, 0, 0⟩ : Source) ∈
        [(⟨0, FT.ver, 0, 0⟩ : Source), ⟨1, FT.pkg, 0, 0⟩]
      ∧ Reach [⟨0, FT.ver, FT.pkg, 0, 100⟩] ⟨0, FT.ver, 0, 0⟩ ∅
      ∧ Reach [⟨0, FT.ver, FT.pkg, 0, 100⟩] ⟨1, FT.pkg, 0, 0⟩ ∅
      ∧ hosts ⟨0, FT.ver, 0, 0⟩ ∅ ⟨0, FT.ver, 0, 0⟩
      ∧ hosts ⟨1, FT.pkg, 0, 0⟩ ∅ ⟨1, FT.pkg, 0, 0⟩)
    ∧ planCost [(⟨0, FT.ver, 0, 0⟩, ∅), (⟨1, FT.pkg, 0, 0⟩, ∅)] = 0
    ∧ ¬ (planCost [(⟨0, FT.ver, 0, 0⟩, {⟨0, FT.ver, FT.pkg, 0, 100⟩})]
          ≤ planCost [(⟨0, FT.ver, 0, 0⟩, ∅), (⟨1, FT.pkg, 0, 0⟩, ∅)]) :=
  ⟨by decide, by decide,
    ⟨by decide, by decide, Reach.nil, Reach.nil, by decide, by decide⟩,
    by decide, by decide⟩

/-- Counterexample for C3 as stated: on the same input, two admissible pop
orders of the planner's `set` worklist return different chosen plans (the
two candidate plans tie at cost 5), so the planner's output is not
determined by its inputs. -/
theorem c3_counterexample :
    plugPlans ⟨[⟨0, FT.ver, 0, 0⟩],
               [⟨0, FT.pkg, FT.ver, 0, 0⟩],
               [⟨0, FT.ver, 0, 5⟩, ⟨1, FT.pkg, 0, 5⟩]⟩ (fun _ => 0) 60
      = some ([], [(⟨0, FT.ver, 0, 5⟩, ∅)], [⟨0, FT.ver, 0, 0⟩])
    ∧ plugPlans ⟨[⟨0, FT.ver, 0, 0⟩],
               [⟨0, FT.pkg, FT.ver, 0, 0⟩],
               [⟨0, FT.ver, 0, 5⟩, ⟨1, FT.pkg, 0, 5⟩]⟩
        (fun n => if n = 0 then 1 else if n = 1 then 1 else 0) 60
      = some ([], [(⟨1, FT.pkg, 0, 5⟩, {⟨0, FT.pkg, FT.ver, 0, 0⟩})],
              [⟨0, FT.ver, 0, 0⟩])
    ∧ ([((⟨0, FT.ver, 0, 5⟩ : Source), (∅ : Finset Tr))]
        ≠ [(⟨1, FT.pkg, 0, 5⟩, {⟨0, FT.pkg, FT.ver, 0, 0⟩})]) :=
  ⟨by decide, by decide, by decide⟩

/-- C4: the planner can crash on a legal input instead of partitioning the
sinks.  With sinks `K1 (ver, scope 2)` and `K2 (pkg, scope 1)` and sources
`A (ver, scope 2, cost 10)`, `B (ver, scope 1, cost 1)`, `C (pkg, scope 1,
cost 1)`, both sinks are reachable (via `A` and `C`), but the chosen
min-cost combination `{B, C}` covers the feed types only — `B`'s scope 1
cannot host `K1` (scope 2), so `K1` is never assigned and the final
`assert not good_sinks` fails: the planning stage succeeds while the whole
of `plug` raises instead of returning. -/
theorem c4_assert_failure :
    plugPlans ⟨[⟨0, FT.ver, 2, 0⟩, ⟨1, FT.pkg, 1, 0⟩], [],
               [⟨0, FT.ver, 2, 10⟩, ⟨1, FT.ver, 1, 1⟩, ⟨2, FT.pkg, 1, 1⟩]⟩
        (fun _ => 0) 100
      = some ([], [(⟨1, FT.ver, 1, 1⟩, ∅), (⟨2, FT.pkg, 1, 1⟩, ∅)],
              [⟨0, FT.ver, 2, 0⟩, ⟨1, FT.pkg, 1, 0⟩])
    ∧ plugFull ⟨[⟨0, FT.ver, 2, 0⟩, ⟨1, FT.pkg, 1, 0⟩], [],
               [⟨0, FT.ver, 2, 10⟩, ⟨1, FT.ver, 1, 1⟩, ⟨2, FT.pkg, 1, 1⟩]⟩
        (fun _ => 0) 100 = none :=
  ⟨by decide, by decide⟩

/-! ## Structure of reachable transform sets (towards claim C2)

The single-pipeline search of `plug` explores exactly the `Reach`able
transform sets.  The lemmas below give their basic structure: destinations
are fresh (distinct from the source's feed type and from each other), every
member comes from the pool within scope, and any strict reachable superset
can be entered one transform at a time (`reach_climb`), which is what lets
the worklist invariant chase an arbitrary covering alternative. -/

lemma mem_visitedOf_of_mem (s : Source) {T : Finset Tr} {t : Tr}
    (ht : t ∈ T) : t.dest ∈ visitedOf s T :=
  Finset.mem_insert_of_mem (Finset.mem_image_of_mem _ ht)

lemma visitedOf_subset (s : Source) {T T2 : Finset Tr} (h : T ⊆ T2) :
    visitedOf s T ⊆ visitedOf s T2 :=
  Finset.insert_subset_insert _ (Finset.image_subset_image h)

lemma visitedOf_insert (s : Source) (t : Tr) (T : Finset Tr) :
    visitedOf s (insert t T) = insert t.dest (visitedOf s T) := by
  unfold visitedOf
  rw [Finset.image_insert, Finset.Insert.comm]

lemma visitedOf_congr {s s2 : Source} (T : Finset Tr)
    (h : s2.feed_type = s.feed_type) : visitedOf s2 T = visitedOf s T := by
  unfold visitedOf; rw [h]

lemma visitedOf_empty (s : Source) : visitedOf s ∅ = {s.feed_type} := by
  simp [visitedOf]

lemma costOf_le (s : Source) {T T2 : Finset Tr} (h : T ⊆ T2) :
    costOf s T ≤ costOf s T2 :=
  Nat.add_le_add_left (Finset.sum_le_sum_of_subset h) _

lemma costOf_insert (s : Source) {t : Tr} {T : Finset Tr} (ht : t ∉ T) :
    costOf s (insert t T) = costOf s T + t.cost := by
  unfold costOf
  rw [Finset.sum_insert ht, Nat.add_comm t.cost, Nat.add_assoc]

lemma reach_dest_ne {pool : List Tr} {s : Source} {T : Finset Tr}
    (h : Reach pool s T) : ∀ t ∈ T, t.dest ≠ s.feed_type := by
  induction h with
  | nil => intro t ht; cases Finset.not_mem_empty t ht
  | grow _ _ _ _ hdst ih =>
    intro u hu
    rcases Finset.mem_insert.mp hu with h1 | h1
    · subst h1
      intro hcontra
      exact hdst (hcontra ▸ Finset.mem_insert_self _ _)
    · exact ih u h1

lemma reach_dest_inj {pool : List Tr} {s : Source} {T : Finset Tr}
    (h : Reach pool s T) :
    ∀ t ∈ T, ∀ u ∈ T, t.dest = u.dest → t = u := by
  induction h with
  | nil => intro t ht; cases Finset.not_mem_empty t ht
  | grow hT _ _ _ hdst ih =>
    intro u1 hu1 u2 hu2 hdd
    rcases Finset.mem_insert.mp hu1 with h1 | h1 <;>
      rcases Finset.mem_insert.mp hu2 with h2 | h2
    · rw [h1, h2]
    · subst h1
      exact absurd (hdd ▸ mem_visitedOf_of_mem s h2) hdst
    · subst h2
      exact absurd (hdd ▸ mem_visitedOf_of_mem s h1) hdst
    · exact ih u1 h1 u2 h2 hdd

lemma reach_pool {pool : List Tr} {s : Source} {T : Finset Tr}
    (h : Reach pool s T) : ∀ t ∈ T, t ∈ pool ∧ t.scope ≤ s.scope := by
  induction h with
  | nil => intro t ht; cases Finset.not_mem_empty t ht
  | grow _ hp hsc _ _ ih =>
    intro u hu
    rcases Finset.mem_insert.mp hu with h1 | h1
    · subst h1; exact ⟨hp, hsc⟩
    · exact ih u h1

lemma reach_transfer {pool : List Tr} {s s2 : Source} {T : Finset Tr}
    (hsc : s.scope ≤ s2.scope) (hf : s2.feed_type = s.feed_type)
    (h : Reach pool s T) : Reach pool s2 T := by
  induction h with
  | nil => exact Reach.nil
  | grow _ hp htsc hsrc hdst ih =>
    exact Reach.grow ih hp (le_trans htsc hsc)
      ((visitedOf_congr _ hf).symm ▸ hsrc)
      ((visitedOf_congr _ hf).symm ▸ hdst)

lemma afterV_append (V : Finset FT) (t : Tr) :
    ∀ l, afterV V (l ++ [t]) = insert t.dest (afterV V l) := by
  intro l
  induction l generalizing V with
  | nil => rfl
  | cons u l ih => exact ih (insert u.dest V)

lemma subset_afterV (V : Finset FT) : ∀ l, V ⊆ afterV V l := by
  intro l
  induction l generalizing V with
  | nil => exact le_refl V
  | cons u l ih =>
    exact subset_trans (Finset.subset_insert _ _) (ih (insert u.dest V))

lemma chain_snoc {pool : List Tr} {s : Source} {V : Finset FT} {l : List Tr}
    (h : ChainFrom pool s V l) {t : Tr} (ht : t ∈ pool)
    (hsc : t.scope ≤ s.scope) (hsrc : t.source ∈ afterV V l)
    (hdst : t.dest ∉ afterV V l) : ChainFrom pool s V (l ++ [t]) := by
  induction h with
  | nil V => exact ChainFrom.cons ht hsc hsrc hdst (ChainFrom.nil _)
  | cons hp hsc2 hsrc2 hdst2 _ ih => exact ChainFrom.cons hp hsc2 hsrc2 hdst2 (ih hsrc hdst)

/-- Every reachable transform set is assembled by some chain from the
source's own feed type. -/
lemma reach_to_chain {pool : List Tr} {s : Source} {T : Finset Tr}
    (h : Reach pool s T) :
    ∃ l : List Tr, ChainFrom pool s (visitedOf s ∅) l ∧ l.toFinset = T ∧
      afterV (visitedOf s ∅) l = visitedOf s T := by
  induction h with
  | nil => exact ⟨[], ChainFrom.nil _, by simp, rfl⟩
  | grow hT hp hsc hsrc hdst ih =>
    obtain ⟨l, hc, hfin, haft⟩ := ih
    refine ⟨l ++ [_], chain_snoc hc hp hsc (haft ▸ hsrc) (haft ▸ hdst), ?_, ?_⟩
    · rw [List.toFinset_append, hfin]
      simp only [List.toFinset_cons, List.toFinset_nil, insert_emptyc_eq]
      rw [Finset.union_comm, ← Finset.insert_eq]
    · rw [afterV_append, haft, visitedOf_insert]

/-- In a chain, if some element's destination lies outside a superset `W`
of the start, then some element extends `W` itself: pool member, in scope,
input in `W`, output outside `W`. -/
lemma chain_fresh {pool : List Tr} {s : Source} {V : Finset FT} {l : List Tr}
    (h : ChainFrom pool s V l) :
    ∀ W : Finset FT, V ⊆ W → (∃ u ∈ l, u.dest ∉ W) →
    ∃ u, u ∈ pool ∧ u ∈ l ∧ u.scope ≤ s.scope ∧ u.source ∈ W ∧ u.dest ∉ W := by
  induction h with
  | nil V =>
    intro W _ hx
    obtain ⟨u, hu, _⟩ := hx
    cases hu
  | cons hp hsc hsrc hdst hch ih =>
    intro W hVW hx
    rename_i V t l
    by_cases hd : t.dest ∈ W
    · have hVW2 : insert t.dest V ⊆ W := Finset.insert_subset hd hVW
      obtain ⟨u0, hu0, hud⟩ := hx
      have hu0l : u0 ∈ l := by
        rcases List.mem_cons.mp hu0 with h1 | h1
        · exact absurd (h1 ▸ hd) hud
        · exact h1
      obtain ⟨u, h1, h2, h3, h4, h5⟩ := ih W hVW2 ⟨u0, hu0l, hud⟩
      exact ⟨u, h1, List.mem_cons_of_mem _ h2, h3, h4, h5⟩
    · exact ⟨t, hp, List.mem_cons_self _ _, hsc, hVW hsrc, hd⟩

/-- Climbing: between two reachable sets `T1 ⊂ T2` over the same source
there is a single transform of `T2` that validly extends `T1`. -/
lemma reach_climb {pool : List Tr} {s : Source} {T1 T2 : Finset Tr}
    (h1 : Reach pool s T1) (h2 : Reach pool s T2)
    (hsub : T1 ⊆ T2) (hne : T1 ≠ T2) :
    ∃ t, t ∈ pool ∧ t.scope ≤ s.scope ∧ t ∉ T1 ∧ insert t T1 ⊆ T2 ∧
      t.source ∈ visitedOf s T1 ∧ t.dest ∉ visitedOf s T1 ∧
      Reach pool s (insert t T1) := by
  obtain ⟨u0, hu0T2, hu0T1⟩ :=
    Finset.exists_of_ssubset (lt_of_le_of_ne hsub hne)
  have hu0d : u0.dest ∉ visitedOf s T1 := by
    intro hin
    rcases Finset.mem_insert.mp hin with hft | him
    · exact reach_dest_ne h2 u0 hu0T2 hft
    · obtain ⟨w, hwT1, hwd⟩ := Finset.mem_image.mp him
      exact hu0T1 (reach_dest_inj h2 u0 hu0T2 w (hsub hwT1) hwd.symm ▸ hwT1)
  obtain ⟨l, hch, hfin, _⟩ := reach_to_chain h2
  have hVW : visitedOf s ∅ ⊆ visitedOf s T1 :=
    visitedOf_subset s (Finset.empty_subset T1)
  obtain ⟨u, hup, hul, husc, husrc, hudst⟩ :=
    chain_fresh hch (visitedOf s T1) hVW
      ⟨u0, (List.mem_toFinset.mp (hfin ▸ hu0T2) : u0 ∈ l), hu0d⟩
  have huT2 : u ∈ T2 := hfin ▸ List.mem_toFinset.mpr hul
  have huT1 : u ∉ T1 := fun hc => hudst (mem_visitedOf_of_mem s hc)
  exact ⟨u, hup, husc, huT1, Finset.insert_subset huT2 hsub,
    husrc, hudst, Reach.grow h1 hup husc husrc hudst⟩

lemma bestLe_trans {b? : Option Nat} {n m : Nat} (h : bestLe b? n)
    (hnm : n ≤ m) : bestLe b? m := by
  obtain ⟨b, hb, hle⟩ := h
  exact ⟨b, hb, le_trans hle hnm⟩

lemma getD_mem {α : Type} [Inhabited α] :
    ∀ (l : List α) (i : Nat), i < l.length → l.getD i default ∈ l := by
  intro l
  induction l with
  | nil => intro i h; cases Nat.not_lt_zero i h
  | cons a l ih =>
    intro i h
    match i with
    | 0 => exact List.mem_cons_self _ _
    | j + 1 => exact List.mem_cons_of_mem _ (ih j (Nat.lt_of_succ_lt_succ h))

lemma mem_eraseIdx_of_ne {α : Type} [Inhabited α] :
    ∀ (l : List α) (i : Nat) (x : α), x ∈ l → x ≠ l.getD i default →
      x ∈ l.eraseIdx i := by
  intro l
  induction l with
  | nil => intro i x hx; cases hx
  | cons a l ih =>
    intro i x hx hne
    match i with
    | 0 =>
      rcases List.mem_cons.mp hx with h1 | h1
      · exact absurd h1 hne
      · exact h1
    | j + 1 =>
      rcases List.mem_cons.mp hx with h1 | h1
      · exact h1 ▸ List.mem_cons_self _ _
      · exact List.mem_cons_of_mem _ (ih j x h1 hne)

lemma mem_of_mem_eraseIdx {α : Type} :
    ∀ (l : List α) (i : Nat) (x : α), x ∈ l.eraseIdx i → x ∈ l := by
  intro l i x h
  exact (List.eraseIdx_sublist l i).subset h

lemma mem_addAbsent {α : Type} [DecidableEq α] (x y : α) (l : List α) :
    x ∈ addAbsent y l ↔ x = y ∨ x ∈ l := by
  unfold addAbsent
  by_cases h : y ∈ l
  · rw [if_pos h]
    constructor
    · exact fun hx => Or.inr hx
    · rintro (rfl | hx)
      · exact h
      · exact hx
  · rw [if_neg h]
    simp [List.mem_append]
    tauto

lemma subset_addAbsent {α : Type} [DecidableEq α] (y : α) (l : List α) :
    l ⊆ addAbsent y l := by
  intro x hx
  exact (mem_addAbsent x y l).mpr (Or.inr hx)

lemma self_mem_addAbsent {α : Type} [DecidableEq α] (y : α) (l : List α) :
    y ∈ addAbsent y l :=
  (mem_addAbsent y y l).mpr (Or.inl rfl)

lemma expand_subset (p : SState) :
    ∀ (ts : List Tr) (u : List SState),
      u ⊆ ts.foldl
        (fun u t => if extOK p t then addAbsent (mkExt p t) u else u) u := by
  intro ts
  induction ts with
  | nil => intro u; exact fun x hx => hx
  | cons t ts ih =>
    intro u
    refine subset_trans ?_ (ih _)
    show u ⊆ (if extOK p t then addAbsent (mkExt p t) u else u)
    by_cases h : extOK p t
    · rw [if_pos h]; exact subset_addAbsent _ _
    · rw [if_neg h]; exact fun x hx => hx

lemma expand_mem_new (p : SState) :
    ∀ (ts : List Tr) (u : List SState) (t : Tr), t ∈ ts → extOK p t →
      mkExt p t ∈ ts.foldl
        (fun u t => if extOK p t then addAbsent (mkExt p t) u else u) u := by
  intro ts
  induction ts with
  | nil => intro u t ht; cases ht
  | cons t0 ts ih =>
    intro u t ht hok
    rcases List.mem_cons.mp ht with h1 | h1
    · subst h1
      refine expand_subset p ts _ ?_
      show mkExt p t ∈ (if extOK p t then addAbsent (mkExt p t) u else u)
      rw [if_pos hok]
      exact self_mem_addAbsent _ _
    · exact ih _ t h1 hok

lemma expand_cases (p : SState) :
    ∀ (ts : List Tr) (u : List SState) (x : SState),
      x ∈ ts.foldl
        (fun u t => if extOK p t then addAbsent (mkExt p t) u else u) u →
      x ∈ u ∨ ∃ t ∈ ts, extOK p t ∧ x = mkExt p t := by
  intro ts
  induction ts with
  | nil => intro u x hx; exact Or.inl hx
  | cons t0 ts ih =>
    intro u x hx
    rcases ih _ x hx with h1 | h1
    · have h1b : x ∈ (if extOK p t0 then addAbsent (mkExt p t0) u else u) := h1
      by_cases h : extOK p t0
      · rw [if_pos h] at h1b
        rcases (mem_addAbsent x _ u).mp h1b with h2 | h2
        · exact Or.inr ⟨t0, List.mem_cons_self _ _, h, h2⟩
        · exact Or.inl h2
      · rw [if_neg h] at h1b
        exact Or.inl h1b
    · obtain ⟨t, ht, hok, hx2⟩ := h1
      exact Or.inr ⟨t, List.mem_cons_of_mem _ ht, hok, hx2⟩

lemma extOK_not_mem {p : SState} {t : Tr} (hv : p.visited = visitedOf p.src p.trans)
    (hok : extOK p t) : t ∉ p.trans := by
  intro hc
  exact hok.2.2 (hv ▸ mem_visitedOf_of_mem p.src hc)

lemma mkExt_valid {inp : Inp} {seeds : List Source} {p : SState} {t : Tr}
    (hv : StValid inp seeds p) (ht : t ∈ inp.transforms) (hok : extOK p t) :
    StValid inp seeds (mkExt p t) := by
  obtain ⟨hseed, hreach, hvis, hcost⟩ := hv
  refine ⟨hseed, ?_, ?_, ?_⟩
  · exact Reach.grow hreach ht hok.1 (hvis ▸ hok.2.1) (hvis ▸ hok.2.2)
  · show insert t.dest p.visited = visitedOf p.src (insert t p.trans)
    rw [hvis, visitedOf_insert]
  · show p.cost + t.cost = costOf p.src (insert t p.trans)
    rw [hcost, costOf_insert p.src (extOK_not_mem hvis hok)]

/-- Chasing a covering alternative `T` over the source of a processed state
`q`: either the recorded best is already at most the alternative's cost, or
some unprocessed, unvisited state still under-approximates `T`.  Strong
induction on how many transforms `q` still lacks. -/
lemma chainCover (inp : Inp) (seeds : List Source) (sinkTypes : Finset FT)
    (unproc pipes : List SState) (best : Option Nat)
    (hvPi : ∀ p ∈ pipes, StValid inp seeds p)
    (hcovBest : ∀ p ∈ pipes, sinkTypes ⊆ p.visited → bestLe best p.cost)
    (hexp : ∀ p ∈ pipes, ¬ sinkTypes ⊆ p.visited →
      bestLe best p.cost ∨
      ∀ t ∈ inp.transforms, extOK p t →
        mkExt p t ∈ pipes ∨ mkExt p t ∈ unproc) :
    ∀ (k : Nat) (q : SState) (T : Finset Tr),
      q ∈ pipes → q.trans ⊆ T → Reach inp.transforms q.src T →
      sinkTypes ⊆ visitedOf q.src T → T.card - q.trans.card ≤ k →
      bestLe best (costOf q.src T) ∨
      ∃ p ∈ unproc, p ∉ pipes ∧ p.src = q.src ∧ p.trans ⊆ T := by
  intro k
  induction k with
  | zero =>
    intro q T hq hsub _ hcov hk
    have hTq : q.trans = T :=
      Finset.eq_of_subset_of_card_le hsub
        (Nat.sub_eq_zero_iff_le.mp (Nat.le_zero.mp hk))
    obtain ⟨_, _, hvis, hcost⟩ := hvPi q hq
    left
    have h1 := hcovBest q hq (by rw [hvis, hTq]; exact hcov)
    rwa [hcost, hTq] at h1
  | succ k ih =>
    intro q T hq hsub hreachT hcov hk
    obtain ⟨_, hreach, hvis, hcost⟩ := hvPi q hq
    by_cases hTq : q.trans = T
    · left
      have h1 := hcovBest q hq (by rw [hvis, hTq]; exact hcov)
      rwa [hcost, hTq] at h1
    · obtain ⟨t, htp, htsc, htn, hins, htsrc, htdst, _⟩ :=
        reach_climb hreach hreachT hsub hTq
      have hok : extOK q t := ⟨htsc, hvis.symm ▸ htsrc, hvis.symm ▸ htdst⟩
      by_cases hcv : sinkTypes ⊆ q.visited
      · left
        refine bestLe_trans (hcovBest q hq hcv) ?_
        rw [hcost]
        exact costOf_le q.src hsub
      · rcases hexp q hq hcv with h1 | hall
        · left
          refine bestLe_trans h1 ?_
          rw [hcost]
          exact costOf_le q.src hsub
        · have hcard : T.card - (mkExt q t).trans.card ≤ k := by
            have h2 : (insert t q.trans).card ≤ T.card := Finset.card_le_card hins
            rw [Finset.card_insert_of_not_mem htn] at h2
            show T.card - (insert t q.trans).card ≤ k
            rw [Finset.card_insert_of_not_mem htn]
            omega
          rcases hall t htp hok with hp | hu
          · rcases ih (mkExt q t) T hp hins hreachT hcov hcard with h2 | h2
            · exact Or.inl h2
            · exact Or.inr h2
          · by_cases hp2 : mkExt q t ∈ pipes
            · rcases ih (mkExt q t) T hp2 hins hreachT hcov hcard with h2 | h2
              · exact Or.inl h2
              · exact Or.inr h2
            · exact Or.inr ⟨mkExt q t, hu, hp2, rfl, hins⟩

lemma bestLe_none (n : Nat) : ¬ bestLe none n := by
  rintro ⟨b, hb, _⟩
  cases hb

lemma stCost_le {inp : Inp} {seeds : List Source} {p : SState} {src : Source}
    {T : Finset Tr} (hpv : StValid inp seeds p) (hqs : p.src = src)
    (hqT : p.trans ⊆ T) : p.cost ≤ costOf src T := by
  rw [hpv.2.2.2, ← hqs]
  exact costOf_le p.src hqT

lemma ph1Process_skip {inp : Inp} {sinkTypes : Finset FT} {st : Ph1}
    {p : SState} (hpin : p ∈ st.pipes) :
    ph1Process inp sinkTypes st p = st := by
  unfold ph1Process
  rw [if_pos hpin]

lemma ph1Process_cov_new {inp : Inp} {sinkTypes : Finset FT} {st : Ph1}
    {p : SState} (hpin : p ∉ st.pipes) (hcv : sinkTypes ⊆ p.visited)
    (hb : st.best = none) :
    ph1Process inp sinkTypes st p =
      { st with
        pipes := st.pipes ++ [p]
        best := some p.cost
        run := some (p.src, p.trans) } := by
  simp only [ph1Process, if_neg hpin, if_pos hcv, hb]

lemma ph1Process_cov_lt {inp : Inp} {sinkTypes : Finset FT} {st : Ph1}
    {p : SState} {b : Nat} (hpin : p ∉ st.pipes) (hcv : sinkTypes ⊆ p.visited)
    (hb : st.best = some b) (hlt : p.cost < b) :
    ph1Process inp sinkTypes st p =
      { st with
        pipes := st.pipes ++ [p]
        best := some p.cost
        run := some (p.src, p.trans) } := by
  simp only [ph1Process, if_neg hpin, if_pos hcv, hb, if_pos hlt]

lemma ph1Process_cov_ge {inp : Inp} {sinkTypes : Finset FT} {st : Ph1}
    {p : SState} {b : Nat} (hpin : p ∉ st.pipes) (hcv : sinkTypes ⊆ p.visited)
    (hb : st.best = some b) (hlt : ¬ p.cost < b) :
    ph1Process inp sinkTypes st p =
      { st with pipes := st.pipes ++ [p] } := by
  simp only [ph1Process, if_neg hpin, if_pos hcv, hb, if_neg hlt]

lemma ph1Process_exp_none {inp : Inp} {sinkTypes : Finset FT} {st : Ph1}
    {p : SState} (hpin : p ∉ st.pipes) (hcv : ¬ sinkTypes ⊆ p.visited)
    (hb : st.best = none) :
    ph1Process inp sinkTypes st p =
      { st with
        pipes := st.pipes ++ [p]
        unproc := ph1Expand inp p st.unproc } := by
  simp only [ph1Process, if_neg hpin, if_neg hcv, hb]

lemma ph1Process_exp_prune {inp : Inp} {sinkTypes : Finset FT} {st : Ph1}
    {p : SState} {b : Nat} (hpin : p ∉ st.pipes) (hcv : ¬ sinkTypes ⊆ p.visited)
    (hb : st.best = some b) (hle : b ≤ p.cost) :
    ph1Process inp sinkTypes st p =
      { st with pipes := st.pipes ++ [p] } := by
  simp only [ph1Process, if_neg hpin, if_neg hcv, hb, if_pos hle]

lemma ph1Process_exp_go {inp : Inp} {sinkTypes : Finset FT} {st : Ph1}
    {p : SState} {b : Nat} (hpin : p ∉ st.pipes) (hcv : ¬ sinkTypes ⊆ p.visited)
    (hb : st.best = some b) (hle : ¬ b ≤ p.cost) :
    ph1Process inp sinkTypes st p =
      { st with
        pipes := st.pipes ++ [p]
        unproc := ph1Expand inp p st.unproc } := by
  simp only [ph1Process, if_neg hpin, if_neg hcv, hb, if_neg hle]

/-- One `ph1Process` step re-establishes the loop invariant, given the
pre-pop invariant restated for the popped state `p` (the worklist witness
may be `p` itself, and a pending expansion may have produced `p`). -/
lemma ph1Process_pres (inp : Inp) (seeds : List Source) (sinkTypes : Finset FT)
    (st : Ph1) (p : SState)
    (hpv : StValid inp seeds p)
    (hvUn : ∀ x ∈ st.unproc, StValid inp seeds x)
    (hvPi : ∀ x ∈ st.pipes, StValid inp seeds x)
    (hwf : ∀ src T, src ∈ seeds → Reach inp.transforms src T →
        sinkTypes ⊆ visitedOf src T →
        bestLe st.best (costOf src T) ∨
        ∃ q, (q ∈ st.unproc ∨ q = p) ∧ q ∉ st.pipes ∧ q.src = src ∧ q.trans ⊆ T)
    (hcovB : ∀ x ∈ st.pipes, sinkTypes ⊆ x.visited → bestLe st.best x.cost)
    (hexp : ∀ x ∈ st.pipes, ¬ sinkTypes ⊆ x.visited →
        bestLe st.best x.cost ∨
        ∀ t ∈ inp.transforms, extOK x t →
          mkExt x t ∈ st.pipes ∨ mkExt x t ∈ st.unproc ∨ mkExt x t = p)
    (hrIff : st.best = none ↔ st.run = none)
    (hrOK : ∀ b, st.best = some b → ∃ src T, st.run = some (src, T) ∧
        src ∈ seeds ∧ Reach inp.transforms src T ∧
        sinkTypes ⊆ visitedOf src T ∧ costOf src T = b) :
    Inv1 inp seeds sinkTypes (ph1Process inp sinkTypes st p) := by
  have hmemP : ∀ x : SState, x ∈ st.pipes ++ [p] ↔ x ∈ st.pipes ∨ x = p := by
    intro x
    simp [List.mem_append]
  have hnotin : ∀ q : SState, q ∉ st.pipes → q ≠ p → q ∉ st.pipes ++ [p] := by
    intro q h1 h2 hc
    rcases (hmemP q).mp hc with h | h
    · exact h1 h
    · exact h2 h
  by_cases hpin : p ∈ st.pipes
  · rw [ph1Process_skip hpin]
    refine ⟨hvUn, hvPi, ?_, hcovB, ?_, hrIff, hrOK⟩
    · intro src T h1 h2 h3
      rcases hwf src T h1 h2 h3 with hb | ⟨q, hqm, hqp, hqs, hqT⟩
      · exact Or.inl hb
      · rcases hqm with hq | heq
        · exact Or.inr ⟨q, hq, hqp, hqs, hqT⟩
        · exact absurd (heq ▸ hpin) hqp
    · intro x hx hncv
      rcases hexp x hx hncv with hb | hall
      · exact Or.inl hb
      · right
        intro t ht hok
        rcases hall t ht hok with h | h | h
        · exact Or.inl h
        · exact Or.inr h
        · exact Or.inl (h ▸ hpin)
  · have hvPi2 : ∀ x ∈ st.pipes ++ [p], StValid inp seeds x := by
      intro x hx
      rcases (hmemP x).mp hx with h | h
      · exact hvPi x h
      · exact h ▸ hpv
    by_cases hcv : sinkTypes ⊆ p.visited
    · rcases hbb : st.best with _ | b
      · rw [ph1Process_cov_new hpin hcv hbb]
        refine ⟨hvUn, hvPi2, ?_, ?_, ?_, ?_, ?_⟩
        · intro src T h1 h2 h3
          rcases hwf src T h1 h2 h3 with hb | ⟨q, hqm, hqp, hqs, hqT⟩
          · rw [hbb] at hb
            exact absurd hb (bestLe_none _)
          · rcases hqm with hq | heq
            · by_cases hqp2 : q = p
              · subst hqp2
                exact Or.inl ⟨q.cost, rfl, stCost_le hpv hqs hqT⟩
              · exact Or.inr ⟨q, hq, hnotin q hqp hqp2, hqs, hqT⟩
            · subst heq
              exact Or.inl ⟨q.cost, rfl, stCost_le hpv hqs hqT⟩
        · intro x hx hcvx
          rcases (hmemP x).mp hx with h | h
          · have h2 := hcovB x h hcvx
            rw [hbb] at h2
            exact absurd h2 (bestLe_none _)
          · exact ⟨p.cost, rfl, h ▸ le_refl x.cost⟩
        · intro x hx hncv
          rcases (hmemP x).mp hx with h | h
          · rcases hexp x h hncv with h2 | hall
            · rw [hbb] at h2
              exact absurd h2 (bestLe_none _)
            · right
              intro t ht hok
              rcases hall t ht hok with hm | hm | hm
              · exact Or.inl ((hmemP _).mpr (Or.inl hm))
              · exact Or.inr hm
              · exact Or.inl ((hmemP _).mpr (Or.inr hm))
          · exact absurd (h ▸ hcv) hncv
        · simp
        · intro b2 hb2
          refine ⟨p.src, p.trans, rfl, hpv.1, hpv.2.1, ?_, ?_⟩
          · rw [← hpv.2.2.1]
            exact hcv
          · rw [← hpv.2.2.2]
            exact Option.some.inj hb2
      · by_cases hlt : p.cost < b
        · rw [ph1Process_cov_lt hpin hcv hbb hlt]
          refine ⟨hvUn, hvPi2, ?_, ?_, ?_, ?_, ?_⟩
          · intro src T h1 h2 h3
            rcases hwf src T h1 h2 h3 with hb | ⟨q, hqm, hqp, hqs, hqT⟩
            · obtain ⟨b', hb', hble⟩ := hb
              rw [hbb] at hb'
              exact Or.inl ⟨p.cost, rfl,
                le_trans (le_of_lt hlt) (Option.some.inj hb' ▸ hble)⟩
            · rcases hqm with hq | heq
              · by_cases hqp2 : q = p
                · subst hqp2
                  exact Or.inl ⟨q.cost, rfl, stCost_le hpv hqs hqT⟩
                · exact Or.inr ⟨q, hq, hnotin q hqp hqp2, hqs, hqT⟩
              · subst heq
                exact Or.inl ⟨q.cost, rfl, stCost_le hpv hqs hqT⟩
          · intro x hx hcvx
            rcases (hmemP x).mp hx with h | h
            · obtain ⟨b', hb', hble⟩ := hcovB x h hcvx
              rw [hbb] at hb'
              exact ⟨p.cost, rfl,
                le_trans (le_of_lt hlt) (Option.some.inj hb' ▸ hble)⟩
            · exact ⟨p.cost, rfl, h ▸ le_refl x.cost⟩
          · intro x hx hncv
            rcases (hmemP x).mp hx with h | h
            · rcases hexp x h hncv with h2 | hall
              · obtain ⟨b', hb', hble⟩ := h2
                rw [hbb] at hb'
                exact Or.inl ⟨p.cost, rfl,
                  le_trans (le_of_lt hlt) (Option.some.inj hb' ▸ hble)⟩
              · right
                intro t ht hok
                rcases hall t ht hok with hm | hm | hm
                · exact Or.inl ((hmemP _).mpr (Or.inl hm))
                · exact Or.inr hm
                · exact Or.inl ((hmemP _).mpr (Or.inr hm))
            · exact absurd (h ▸ hcv) hncv
          · simp
          · intro b2 hb2
            refine ⟨p.src, p.trans, rfl, hpv.1, hpv.2.1, ?_, ?_⟩
            · rw [← hpv.2.2.1]
              exact hcv
            · rw [← hpv.2.2.2]
              exact Option.some.inj hb2
        · rw [ph1Process_cov_ge hpin hcv hbb hlt]
          refine ⟨hvUn, hvPi2, ?_, ?_, ?_, hrIff, hrOK⟩
          · intro src T h1 h2 h3
            rcases hwf src T h1 h2 h3 with hb | ⟨q, hqm, hqp, hqs, hqT⟩
            · exact Or.inl hb
            · rcases hqm with hq | heq
              · by_cases hqp2 : q = p
                · subst hqp2
                  exact Or.inl ⟨b, hbb,
                    le_trans (Nat.le_of_not_lt hlt) (stCost_le hpv hqs hqT)⟩
                · exact Or.inr ⟨q, hq, hnotin q hqp hqp2, hqs, hqT⟩
              · subst heq
                exact Or.inl ⟨b, hbb,
                  le_trans (Nat.le_of_not_lt hlt) (stCost_le hpv hqs hqT)⟩
          · intro x hx hcvx
            rcases (hmemP x).mp hx with h | h
            · exact hcovB x h hcvx
            · exact ⟨b, hbb, h ▸ Nat.le_of_not_lt hlt⟩
          · intro x hx hncv
            rcases (hmemP x).mp hx with h | h
            · rcases hexp x h hncv with h2 | hall
              · exact Or.inl h2
              · right
                intro t ht hok
                rcases hall t ht hok with hm | hm | hm
                · exact Or.inl ((hmemP _).mpr (Or.inl hm))
                · exact Or.inr hm
                · exact Or.inl ((hmemP _).mpr (Or.inr hm))
            · exact absurd (h ▸ hcv) hncv
    · -- non-covering: the state expands or is pruned
      rcases hbb : st.best with _ | b
      · rw [ph1Process_exp_none hpin hcv hbb]
        have hcovB2 : ∀ x ∈ st.pipes ++ [p], sinkTypes ⊆ x.visited →
            bestLe st.best x.cost := by
          intro x hx hcvx
          rcases (hmemP x).mp hx with h | h
          · exact hcovB x h hcvx
          · exact absurd (h ▸ hcvx) hcv
        have hexp2 : ∀ x ∈ st.pipes ++ [p], ¬ sinkTypes ⊆ x.visited →
            bestLe st.best x.cost ∨
            ∀ t ∈ inp.transforms, extOK x t →
              mkExt x t ∈ st.pipes ++ [p] ∨
              mkExt x t ∈ ph1Expand inp p st.unproc := by
          intro x hx hncv
          rcases (hmemP x).mp hx with h | h
          · rcases hexp x h hncv with h2 | hall
            · exact Or.inl h2
            · right
              intro t ht hok
              rcases hall t ht hok with hm | hm | hm
              · exact Or.inl ((hmemP _).mpr (Or.inl hm))
              · exact Or.inr (expand_subset p inp.transforms st.unproc hm)
              · exact Or.inl ((hmemP _).mpr (Or.inr hm))
          · subst h
            right
            intro t ht hok
            exact Or.inr (expand_mem_new x inp.transforms st.unproc t ht hok)
        refine ⟨?_, hvPi2, ?_, hcovB2, hexp2, hrIff, hrOK⟩
        · intro x hx
          rcases expand_cases p inp.transforms st.unproc x hx with h | ⟨t, ht, hok, hx2⟩
          · exact hvUn x h
          · exact hx2 ▸ mkExt_valid hpv ht hok
        · intro src T h1 h2 h3
          rcases hwf src T h1 h2 h3 with hb | ⟨q, hqm, hqp, hqs, hqT⟩
          · exact Or.inl hb
          · have hPmain : p.src = src → p.trans ⊆ T →
                bestLe st.best (costOf src T) ∨
                ∃ w ∈ ph1Expand inp p st.unproc,
                  w ∉ st.pipes ++ [p] ∧ w.src = src ∧ w.trans ⊆ T := by
              intro hqs2 hqT2
              rcases chainCover inp seeds sinkTypes
                  (ph1Expand inp p st.unproc) (st.pipes ++ [p]) st.best
                  hvPi2 hcovB2 hexp2 (T.card - p.trans.card) p T
                  ((hmemP p).mpr (Or.inr rfl)) hqT2 (hqs2.symm ▸ h2)
                  (hqs2.symm ▸ h3) (le_refl _)
                with hcb | ⟨w, hw, hwp, hwsrc, hwT⟩
              · exact Or.inl (hqs2 ▸ hcb)
              · exact Or.inr ⟨w, hw, hwp, hwsrc.trans hqs2, hwT⟩
            rcases hqm with hq | heq
            · by_cases hqp2 : q = p
              · exact hPmain (hqp2 ▸ hqs) (hqp2 ▸ hqT)
              · exact Or.inr ⟨q,
                  expand_subset p inp.transforms st.unproc hq,
                  hnotin q hqp hqp2, hqs, hqT⟩
            · exact hPmain (heq ▸ hqs) (heq ▸ hqT)
      · by_cases hle : b ≤ p.cost
        · rw [ph1Process_exp_prune hpin hcv hbb hle]
          refine ⟨hvUn, hvPi2, ?_, ?_, ?_, hrIff, hrOK⟩
          · intro src T h1 h2 h3
            rcases hwf src T h1 h2 h3 with hb | ⟨q, hqm, hqp, hqs, hqT⟩
            · exact Or.inl hb
            · rcases hqm with hq | heq
              · by_cases hqp2 : q = p
                · subst hqp2
                  exact Or.inl ⟨b, hbb, le_trans hle (stCost_le hpv hqs hqT)⟩
                · exact Or.inr ⟨q, hq, hnotin q hqp hqp2, hqs, hqT⟩
              · subst heq
                exact Or.inl ⟨b, hbb, le_trans hle (stCost_le hpv hqs hqT)⟩
          · intro x hx hcvx
            rcases (hmemP x).mp hx with h | h
            · exact hcovB x h hcvx
            · exact absurd (h ▸ hcvx) hcv
          · intro x hx hncv
            rcases (hmemP x).mp hx with h | h
            · rcases hexp x h hncv with h2 | hall
              · exact Or.inl h2
              · right
                intro t ht hok
                rcases hall t ht hok with hm | hm | hm
                · exact Or.inl ((hmemP _).mpr (Or.inl hm))
                · exact Or.inr hm
                · exact Or.inl ((hmemP _).mpr (Or.inr hm))
            · exact Or.inl ⟨b, hbb, h ▸ hle⟩
        · rw [ph1Process_exp_go hpin hcv hbb hle]
          have hcovB2 : ∀ x ∈ st.pipes ++ [p], sinkTypes ⊆ x.visited →
              bestLe st.best x.cost := by
            intro x hx hcvx
            rcases (hmemP x).mp hx with h | h
            · exact hcovB x h hcvx
            · exact absurd (h ▸ hcvx) hcv
          have hexp2 : ∀ x ∈ st.pipes ++ [p], ¬ sinkTypes ⊆ x.visited →
              bestLe st.best x.cost ∨
              ∀ t ∈ inp.transforms, extOK x t →
                mkExt x t ∈ st.pipes ++ [p] ∨
                mkExt x t ∈ ph1Expand inp p st.unproc := by
            intro x hx hncv
            rcases (hmemP x).mp hx with h | h
            · rcases hexp x h hncv with h2 | hall
              · exact Or.inl h2
              · right
                intro t ht hok
                rcases hall t ht hok with hm | hm | hm
                · exact Or.inl ((hmemP _).mpr (Or.inl hm))
                · exact Or.inr (expand_subset p inp.transforms st.unproc hm)
                · exact Or.inl ((hmemP _).mpr (Or.inr hm))
            · subst h
              right
              intro t ht hok
              exact Or.inr (expand_mem_new x inp.transforms st.unproc t ht hok)
          refine ⟨?_, hvPi2, ?_, hcovB2, hexp2, hrIff, hrOK⟩
          · intro x hx
            rcases expand_cases p inp.transforms st.unproc x hx with h | ⟨t, ht, hok, hx2⟩
            · exact hvUn x h
            · exact hx2 ▸ mkExt_valid hpv ht hok
          · intro src T h1 h2 h3
            rcases hwf src T h1 h2 h3 with hb | ⟨q, hqm, hqp, hqs, hqT⟩
            · exact Or.inl hb
            · have hPmain : p.src = src → p.trans ⊆ T →
                  bestLe st.best (costOf src T) ∨
                  ∃ w ∈ ph1Expand inp p st.unproc,
                    w ∉ st.pipes ++ [p] ∧ w.src = src ∧ w.trans ⊆ T := by
                intro hqs2 hqT2
                rcases chainCover inp seeds sinkTypes
                    (ph1Expand inp p st.unproc) (st.pipes ++ [p]) st.best
                    hvPi2 hcovB2 hexp2 (T.card - p.trans.card) p T
                    ((hmemP p).mpr (Or.inr rfl)) hqT2 (hqs2.symm ▸ h2)
                    (hqs2.symm ▸ h3) (le_refl _)
                  with hcb | ⟨w, hw, hwp, hwsrc, hwT⟩
                · exact Or.inl (hqs2 ▸ hcb)
                · exact Or.inr ⟨w, hw, hwp, hwsrc.trans hqs2, hwT⟩
              rcases hqm with hq | heq
              · by_cases hqp2 : q = p
                · exact hPmain (hqp2 ▸ hqs) (hqp2 ▸ hqT)
                · exact Or.inr ⟨q,
                    expand_subset p inp.transforms st.unproc hq,
                    hnotin q hqp hqp2, hqs, hqT⟩
              · exact hPmain (heq ▸ hqs) (heq ▸ hqT)

/-- A popped-index step preserves the invariant. -/
lemma ph1Step_pres (inp : Inp) (seeds : List Source) (sinkTypes : Finset FT)
    (st : Ph1) (i : Nat) (hi : i < st.unproc.length)
    (hInv : Inv1 inp seeds sinkTypes st) :
    Inv1 inp seeds sinkTypes
      (ph1Process inp sinkTypes
        { st with unproc := st.unproc.eraseIdx i, n := st.n + 1 }
        (st.unproc.getD i default)) := by
  apply ph1Process_pres
  · exact hInv.vUn _ (getD_mem _ _ hi)
  · intro x hx
    exact hInv.vUn x (mem_of_mem_eraseIdx _ _ _ hx)
  · exact hInv.vPi
  · intro src T h1 h2 h3
    rcases hInv.wf src T h1 h2 h3 with hb | ⟨q, hq, hqp, hqs, hqT⟩
    · exact Or.inl hb
    · by_cases hqp2 : q = st.unproc.getD i default
      · exact Or.inr ⟨q, Or.inr hqp2, hqp, hqs, hqT⟩
      · exact Or.inr ⟨q, Or.inl (mem_eraseIdx_of_ne _ _ q hq hqp2), hqp, hqs, hqT⟩
  · exact hInv.covBest
  · intro x hx hncv
    rcases hInv.expDone x hx hncv with hb | hall
    · exact Or.inl hb
    · right
      intro t ht hok
      rcases hall t ht hok with hm | hm
      · exact Or.inl hm
      · by_cases hm2 : mkExt x t = st.unproc.getD i default
        · exact Or.inr (Or.inr hm2)
        · exact Or.inr (Or.inl (mem_eraseIdx_of_ne _ _ _ hm hm2))
  · exact hInv.runIff
  · exact hInv.runOK

/-- The loop maintains the invariant and, on normal exit, has drained the
worklist. -/
lemma ph1Loop_inv (inp : Inp) (seeds : List Source) (sinkTypes : Finset FT)
    (oracle : Nat → Nat) :
    ∀ (fuel : Nat) (st F : Ph1), Inv1 inp seeds sinkTypes st →
      ph1Loop inp sinkTypes oracle fuel st = some F →
      Inv1 inp seeds sinkTypes F ∧ F.unproc = [] := by
  intro fuel
  induction fuel with
  | zero =>
    intro st F hInv hrun
    rcases hu : st.unproc with _ | ⟨a, l⟩
    · simp only [ph1Loop, hu] at hrun
      cases hrun
      exact ⟨hInv, hu⟩
    · simp only [ph1Loop, hu] at hrun
      cases hrun
  | succ fuel ih =>
    intro st F hInv hrun
    rcases hu : st.unproc with _ | ⟨a, l⟩
    · simp only [ph1Loop, hu] at hrun
      cases hrun
      exact ⟨hInv, hu⟩
    · simp only [ph1Loop, hu] at hrun
      rw [← hu] at hrun
      have hlen : 0 < st.unproc.length := by
        rw [hu]
        exact Nat.succ_pos _
      exact ih _ F
        (ph1Step_pres inp seeds sinkTypes st
          (oracle st.n % st.unproc.length) (Nat.mod_lt _ hlen) hInv) hrun

/-- Seed states are well formed. -/
lemma seedState_valid (inp : Inp) (seeds : List Source) (s : Source)
    (hs : s ∈ seeds) : StValid inp seeds (seedState s) := by
  refine ⟨hs, Reach.nil, ?_, ?_⟩
  · show ({s.feed_type} : Finset FT) = visitedOf s ∅
    rw [visitedOf_empty]
  · show s.cost = costOf s ∅
    unfold costOf
    rw [Finset.sum_empty]
    rfl

/-- The invariant holds at the start of the single-pipeline search. -/
lemma inv1_init (inp : Inp) (seeds : List Source) (sinkTypes : Finset FT) :
    Inv1 inp seeds sinkTypes ⟨seeds.map seedState, [], none, none, 0⟩ := by
  refine ⟨?_, ?_, ?_, ?_, ?_, ⟨fun _ => rfl, fun _ => rfl⟩, ?_⟩
  · intro x hx
    obtain ⟨s, hs, hx2⟩ := List.mem_map.mp hx
    exact hx2 ▸ seedState_valid inp seeds s hs
  · intro x hx
    cases hx
  · intro src T h1 _ _
    right
    exact ⟨seedState src, List.mem_map_of_mem _ h1, List.not_mem_nil _,
      rfl, Finset.empty_subset T⟩
  · intro x hx
    cases hx
  · intro x hx
    cases hx
  · intro b hb
    cases hb

/-! ## The `source_map` fold keeps, per `(scope, feed type)`, a cheapest
source -/

lemma mapUpd_keyed {m : List ((Nat × FT) × Source)} {s : Source}
    (hm : ∀ e ∈ m, e.1 = (e.2.scope, e.2.feed_type)) :
    ∀ e ∈ mapUpd m s, e.1 = (e.2.scope, e.2.feed_type) := by
  induction m with
  | nil =>
    intro e he
    rcases List.mem_singleton.mp he with rfl
    rfl
  | cons kv rest ih =>
    intro e he
    rw [mapUpd] at he
    by_cases hk : kv.1 = (s.scope, s.feed_type)
    · rw [if_pos hk] at he
      rcases List.mem_cons.mp he with h1 | h1
      · by_cases hc : s.cost < kv.2.cost
        · rw [if_pos hc] at h1
          subst h1
          exact hk
        · rw [if_neg hc] at h1
          subst h1
          exact hm kv (List.mem_cons_self _ _)
      · exact hm e (List.mem_cons_of_mem _ h1)
    · rw [if_neg hk] at he
      rcases List.mem_cons.mp he with h1 | h1
      · subst h1
        exact hm kv (List.mem_cons_self _ _)
      · exact ih (fun e2 he2 => hm e2 (List.mem_cons_of_mem _ he2)) e h1

lemma mapUpd_new (m : List ((Nat × FT) × Source)) (s : Source) :
    ∃ e ∈ mapUpd m s, e.1 = (s.scope, s.feed_type) ∧ e.2.cost ≤ s.cost := by
  induction m with
  | nil => exact ⟨((s.scope, s.feed_type), s), List.mem_singleton.mpr rfl,
      rfl, le_refl _⟩
  | cons kv rest ih =>
    rw [mapUpd]
    by_cases hk : kv.1 = (s.scope, s.feed_type)
    · rw [if_pos hk]
      by_cases hc : s.cost < kv.2.cost
      · rw [if_pos hc]
        exact ⟨(kv.1, s), List.mem_cons_self _ _, hk, le_refl _⟩
      · rw [if_neg hc]
        exact ⟨(kv.1, kv.2), List.mem_cons_self _ _, hk, Nat.le_of_not_lt hc⟩
    · rw [if_neg hk]
      obtain ⟨e, he, hek, hec⟩ := ih
      exact ⟨e, List.mem_cons_of_mem _ he, hek, hec⟩

lemma mapUpd_old (m : List ((Nat × FT) × Source)) (s : Source) :
    ∀ e ∈ m, ∃ e2 ∈ mapUpd m s, e2.1 = e.1 ∧ e2.2.cost ≤ e.2.cost := by
  induction m with
  | nil =>
    intro e he
    cases he
  | cons kv rest ih =>
    intro e he
    rw [mapUpd]
    by_cases hk : kv.1 = (s.scope, s.feed_type)
    · rw [if_pos hk]
      rcases List.mem_cons.mp he with h1 | h1
      · rw [h1]
        by_cases hc : s.cost < kv.2.cost
        · rw [if_pos hc]
          exact ⟨(kv.1, s), List.mem_cons_self _ _, rfl, le_of_lt hc⟩
        · rw [if_neg hc]
          exact ⟨(kv.1, kv.2), List.mem_cons_self _ _, rfl, le_refl _⟩
      · by_cases hc : s.cost < kv.2.cost
        · rw [if_pos hc]
          exact ⟨e, List.mem_cons_of_mem _ h1, rfl, le_refl _⟩
        · rw [if_neg hc]
          exact ⟨e, List.mem_cons_of_mem _ h1, rfl, le_refl _⟩
    · rw [if_neg hk]
      rcases List.mem_cons.mp he with h1 | h1
      · rw [h1]
        exact ⟨(kv.1, kv.2), List.mem_cons_self _ _, rfl, le_refl _⟩
      · obtain ⟨e2, he2, hek, hec⟩ := ih e h1
        exact ⟨e2, List.mem_cons_of_mem _ he2, hek, hec⟩

lemma smap_fold_keyed :
    ∀ (l : List Source) (m : List ((Nat × FT) × Source)),
      (∀ e ∈ m, e.1 = (e.2.scope, e.2.feed_type)) →
      ∀ e ∈ l.foldl mapUpd m, e.1 = (e.2.scope, e.2.feed_type) := by
  intro l
  induction l with
  | nil => intro m hm; exact hm
  | cons s l ih => intro m hm; exact ih (mapUpd m s) (mapUpd_keyed hm)

lemma smap_fold_old :
    ∀ (l : List Source) (m : List ((Nat × FT) × Source)) (e : (Nat × FT) × Source),
      e ∈ m → ∃ e2 ∈ l.foldl mapUpd m, e2.1 = e.1 ∧ e2.2.cost ≤ e.2.cost := by
  intro l
  induction l with
  | nil => intro m e he; exact ⟨e, he, rfl, le_refl _⟩
  | cons s l ih =>
    intro m e he
    obtain ⟨e1, he1, hk1, hc1⟩ := mapUpd_old m s e he
    obtain ⟨e2, he2, hk2, hc2⟩ := ih (mapUpd m s) e1 he1
    exact ⟨e2, he2, hk2.trans hk1, le_trans hc2 hc1⟩

lemma smap_fold_covers :
    ∀ (l : List Source) (m : List ((Nat × FT) × Source)) (s : Source),
      s ∈ l → ∃ e ∈ l.foldl mapUpd m,
        e.1 = (s.scope, s.feed_type) ∧ e.2.cost ≤ s.cost := by
  intro l
  induction l with
  | nil => intro m s hs; cases hs
  | cons s0 l ih =>
    intro m s hs
    rcases List.mem_cons.mp hs with h1 | h1
    · subst h1
      obtain ⟨e1, he1, hk1, hc1⟩ := mapUpd_new m s
      obtain ⟨e2, he2, hk2, hc2⟩ := smap_fold_old l (mapUpd m s) e1 he1
      exact ⟨e2, he2, hk2.trans hk1, le_trans hc2 hc1⟩
    · exact ih (mapUpd m s0) s h1

/-- For every surviving source, the seed list contains a source with the
same scope and feed type and no greater cost. -/
lemma seeds_cover (sources2 : List Source) (s : Source) (hs : s ∈ sources2) :
    ∃ v ∈ (sources2.foldl mapUpd []).map (fun e => e.2),
      v.scope = s.scope ∧ v.feed_type = s.feed_type ∧ v.cost ≤ s.cost := by
  obtain ⟨e, he, hkey, hcost⟩ := smap_fold_covers sources2 [] s hs
  have hk := smap_fold_keyed sources2 []
    (by intro e2 he2; cases he2) e he
  have h2 : ((e.2.scope, e.2.feed_type) : Nat × FT) = (s.scope, s.feed_type) :=
    hk ▸ hkey
  exact ⟨e.2, List.mem_map_of_mem _ he,
    ((Prod.mk.injEq _ _ _ _).mp h2).1, ((Prod.mk.injEq _ _ _ _).mp h2).2, hcost⟩

/-- Membership in the folded sink-type set. -/
lemma sinkTypes_spec :
    ∀ (l : List Sink) (acc : Finset FT) (ft : FT),
      ft ∈ l.foldl (fun s sk => insert sk.feed_type s) acc ↔
        ft ∈ acc ∨ ∃ sk ∈ l, sk.feed_type = ft := by
  intro l
  induction l with
  | nil =>
    intro acc ft
    simp
  | cons sk l ih =>
    intro acc ft
    rw [List.foldl_cons, ih]
    simp only [Finset.mem_insert, List.mem_cons]
    constructor
    · rintro ((h | h) | ⟨sk2, h1, h2⟩)
      · exact Or.inr ⟨sk, Or.inl rfl, h.symm⟩
      · exact Or.inl h
      · exact Or.inr ⟨sk2, Or.inr h1, h2⟩
    · rintro (h | ⟨sk2, h1 | h1, h2⟩)
      · exact Or.inl (Or.inr h)
      · exact Or.inl (Or.inl (h1 ▸ h2.symm))
      · exact Or.inr ⟨sk2, h1, h2⟩

/-- The folded minimum scope bounds the accumulator and every member. -/
lemma foldl_min_le :
    ∀ (l : List Sink) (m : Nat),
      l.foldl (fun m sk => min m sk.scope) m ≤ m ∧
      ∀ sk ∈ l, l.foldl (fun m sk => min m sk.scope) m ≤ sk.scope := by
  intro l
  induction l with
  | nil =>
    intro m
    exact ⟨le_refl m, fun sk hsk => absurd hsk (List.not_mem_nil sk)⟩
  | cons sk0 l ih =>
    intro m
    rw [List.foldl_cons]
    obtain ⟨h1, h2⟩ := ih (min m sk0.scope)
    refine ⟨le_trans h1 (min_le_left _ _), ?_⟩
    intro sk hsk
    rcases List.mem_cons.mp hsk with h3 | h3
    · subst h3
      exact le_trans h1 (min_le_right _ _)
    · exact h2 sk h3

/-- C2 (amended): minimality against single-pipeline alternatives.  If the
planner succeeds with a non-empty chosen plan list, then for every source
`s` of the input and every transform set `T` the search could assemble over
it that can host all good sinks, the chosen plans cost no more than
`(s, T)` does.  (The original claim, minimality against arbitrary
alternative plans, is false: `c2_counterexample` exhibits a cheaper valid
two-pipeline alternative.) -/
theorem c2_minimal_single (inp : Inp) (oracle : Nat → Nat) (fuel : Nat)
    (bad : List Sink) (plans : List (Source × Finset Tr)) (good : List Sink)
    (s : Source) (T : Finset Tr)
    (hp : plugPlans inp oracle fuel = some (bad, plans, good))
    (hne : plans ≠ [])
    (hs : s ∈ inp.sources) (hT : Reach inp.transforms s T)
    (hcov : ∀ sk ∈ good, hosts s T sk) :
    planCost plans ≤ costOf s T := by
  simp only [plugPlans] at hp
  split at hp
  · cases hp
  · split at hp
    · cases hp
    · rename_i gb _hpart
      split at hp
      · rename_i hg
        exact absurd (((Prod.mk.injEq _ _ _ _).mp
          ((Prod.mk.injEq _ _ _ _).mp (Option.some.inj hp)).2).1).symm hne
      · rename_i g gs hg
        split at hp
        · exact absurd (((Prod.mk.injEq _ _ _ _).mp
            ((Prod.mk.injEq _ _ _ _).mp (Option.some.inj hp)).2).1).symm hne
        · rename_i s2 srest hflt
          split at hp
          · cases hp
          · rename_i f1 hloop
            have hInv := ph1Loop_inv inp
              (((s2 :: srest).foldl mapUpd []).map (fun e => e.2))
              (gb.1.foldl (fun s sk => insert sk.feed_type s) ∅)
              oracle fuel _ f1 (inv1_init _ _ _) hloop
            obtain ⟨hIF, hUn⟩ := hInv
            have hKey : (∀ sk ∈ gb.1, hosts s T sk) →
                bestLe f1.best (costOf s T) := by
              intro hcov2
              have hgmem : g ∈ gb.1 := by
                rw [hg]
                exact List.mem_cons_self _ _
              have hlow : gs.foldl (fun m sk => min m sk.scope) g.scope ≤
                  s.scope :=
                le_trans (foldl_min_le gs g.scope).1 (hcov2 g hgmem).2
              have hsf : s ∈ s2 :: srest := by
                rw [← hflt]
                exact List.mem_filter.mpr ⟨hs, decide_eq_true hlow⟩
              obtain ⟨s1, hs1, hsc1, hft1, hco1⟩ := seeds_cover (s2 :: srest) s hsf
              have hreach1 : Reach inp.transforms s1 T :=
                reach_transfer (le_of_eq hsc1.symm) hft1 hT
              have hcovT : (gb.1.foldl (fun s sk => insert sk.feed_type s) ∅)
                  ⊆ visitedOf s1 T := by
                intro ft hft
                rw [visitedOf_congr T hft1]
                rcases (sinkTypes_spec gb.1 ∅ ft).mp hft with h | ⟨sk, hsk, hskft⟩
                · exact absurd h (Finset.not_mem_empty ft)
                · exact hskft ▸ (hcov2 sk hsk).1
              rcases hIF.wf s1 T hs1 hreach1 hcovT with hbl | ⟨w, hw, _⟩
              · refine bestLe_trans hbl ?_
                unfold costOf
                exact Nat.add_le_add_right hco1 _
              · rw [hUn] at hw
                cases hw
            split at hp
            · rename_i pr hrun
              obtain ⟨hbad2, hrest⟩ := (Prod.mk.injEq _ _ _ _).mp
                (Option.some.inj hp)
              obtain ⟨hplans, hgood⟩ := (Prod.mk.injEq _ _ _ _).mp hrest
              rcases hbst : f1.best with _ | b
              · rw [hIF.runIff.mp hbst] at hrun
                cases hrun
              · obtain ⟨src0, T0, hrun0, _, _, _, hcost0⟩ := hIF.runOK b hbst
                have hpr : pr = (src0, T0) := by
                  rw [hrun] at hrun0
                  exact Option.some.inj hrun0
                obtain ⟨b1, hb1, hble⟩ := hKey (hgood ▸ hcov)
                have hbb1 : b1 = b := by
                  rw [hbst] at hb1
                  exact (Option.some.inj hb1).symm
                have hpc : planCost plans = b := by
                  rw [← hplans, hpr]
                  simp only [planCost, List.map_cons, List.map_nil,
                    List.sum_cons, List.sum_nil, Nat.add_zero]
                  exact hcost0
                rw [hpc, ← hbb1]
                exact hble
            · rename_i hrun
              have hb0 : f1.best = none := hIF.runIff.mpr hrun
              split at hp
              · cases hp
              · rename_i f2 hloop2
                split at hp
                · rename_i sq hrun2
                  obtain ⟨hbad2, hrest⟩ := (Prod.mk.injEq _ _ _ _).mp
                    (Option.some.inj hp)
                  obtain ⟨hplans, hgood⟩ := (Prod.mk.injEq _ _ _ _).mp hrest
                  obtain ⟨b1, hb1, _⟩ := hKey (hgood ▸ hcov)
                  rw [hb0] at hb1
                  cases hb1
                · cases hp

/-- Witness for C2's amended theorem: a two-sink input where the planner
chooses the pipe `(S1, {ver→pkg})` of cost 6, compared against that same
pipe as the alternative. -/
theorem c2_minimal_single_witness :
    plugPlans ⟨[⟨0, FT.ver, 0, 0⟩, ⟨1, FT.pkg, 0, 0⟩],
               [⟨0, FT.ver, FT.pkg, 0, 1⟩],
               [⟨0, FT.ver, 0, 5⟩, ⟨1, FT.pkg, 0, 3⟩]⟩ (fun _ => 0) 60
      = some ([], [(⟨0, FT.ver, 0, 5⟩, {⟨0, FT.ver, FT.pkg, 0, 1⟩})],
              [⟨0, FT.ver, 0, 0⟩, ⟨1, FT.pkg, 0, 0⟩])
    ∧ planCost [(⟨0, FT.ver, 0, 5⟩, {⟨0, FT.ver, FT.pkg, 0, 1⟩})]
        ≤ costOf ⟨0, FT.ver, 0, 5⟩ {⟨0, FT.ver, FT.pkg, 0, 1⟩} :=
  ⟨by decide,
   c2_minimal_single
     ⟨[⟨0, FT.ver, 0, 0⟩, ⟨1, FT.pkg, 0, 0⟩],
      [⟨0, FT.ver, FT.pkg, 0, 1⟩],
      [⟨0, FT.ver, 0, 5⟩, ⟨1, FT.pkg, 0, 3⟩]⟩ (fun _ => 0) 60
     [] [(⟨0, FT.ver, 0, 5⟩, {⟨0, FT.ver, FT.pkg, 0, 1⟩})]
     [⟨0, FT.ver, 0, 0⟩, ⟨1, FT.pkg, 0, 0⟩]
     ⟨0, FT.ver, 0, 5⟩ {⟨0, FT.ver, FT.pkg, 0, 1⟩}
     (by decide) (by decide) (by decide)
     (Reach.grow Reach.nil (by decide) (by decide) (by decide) (by decide))
     (by decide)⟩

/-! ## Determinism of the unreachable/good partition (towards claim C3)

The good/bad sink partition is computed before any `set` worklist is
popped, so it does not depend on the pop oracle; it also does not depend on
the fuel, because the reachability closure is fuel-monotone. -/

lemma closureLoop_nil (inp : Inp) (sc : Nat) :
    ∀ (f : Nat) (r : Finset FT), closureLoop inp sc f [] r = some r := by
  intro f r
  cases f with
  | zero => rfl
  | succ f => rfl

lemma closureLoop_mono (inp : Inp) (sc : Nat) :
    ∀ (f2 f : Nat) (todo : List FT) (r res : Finset FT), f ≤ f2 →
      closureLoop inp sc f todo r = some res →
      closureLoop inp sc f2 todo r = some res := by
  intro f2
  induction f2 with
  | zero =>
    intro f todo r res hle h
    rw [Nat.le_zero.mp hle] at h
    exact h
  | succ f2 ih =>
    intro f todo r res hle h
    cases todo with
    | nil =>
      rw [closureLoop_nil] at h
      rw [closureLoop_nil]
      exact h
    | cons ft rest =>
      cases f with
      | zero =>
        simp only [closureLoop] at h
        exact Option.noConfusion h
      | succ f =>
        simp only [closureLoop] at h
        simp only [closureLoop]
        exact ih f _ _ res (Nat.le_of_succ_le_succ hle) h

lemma sourceReach_det (inp : Inp) {f1 f2 : Nat} {s : Source}
    {r1 r2 : Finset FT} (h1 : sourceReach inp f1 s = some r1)
    (h2 : sourceReach inp f2 s = some r2) : r1 = r2 := by
  unfold sourceReach at h1 h2
  have h1m := closureLoop_mono inp s.scope (max f1 f2) f1 _ _ r1
    (le_max_left _ _) h1
  have h2m := closureLoop_mono inp s.scope (max f1 f2) f2 _ _ r2
    (le_max_right _ _) h2
  rw [h1m] at h2m
  exact Option.some.inj h2m

lemma foldScopes_det (inp : Inp) :
    ∀ (l : List Source) (bs : FT → Option Nat) (f1 f2 : Nat)
      (r1 r2 : FT → Option Nat),
      l.foldlM (fun bs s => (sourceReach inp f1 s).map (fun r ft =>
        if ft ∈ r then
          match bs ft with
          | none => some s.scope
          | some sc => some (if sc < s.scope then s.scope else sc)
        else bs ft)) bs = some r1 →
      l.foldlM (fun bs s => (sourceReach inp f2 s).map (fun r ft =>
        if ft ∈ r then
          match bs ft with
          | none => some s.scope
          | some sc => some (if sc < s.scope then s.scope else sc)
        else bs ft)) bs = some r2 →
      r1 = r2 := by
  intro l
  induction l with
  | nil =>
    intro bs f1 f2 r1 r2 h1 h2
    rw [List.foldlM_nil] at h1 h2
    rw [← Option.some.inj h1, ← Option.some.inj h2]
  | cons s l ih =>
    intro bs f1 f2 r1 r2 h1 h2
    rw [List.foldlM_cons] at h1 h2
    cases hs1 : sourceReach inp f1 s with
    | none =>
      rw [hs1] at h1
      exact Option.noConfusion h1
    | some r =>
      cases hs2 : sourceReach inp f2 s with
      | none =>
        rw [hs2] at h2
        exact Option.noConfusion h2
      | some r' =>
        have hrr : r = r' := sourceReach_det inp hs1 hs2
        rw [hs1] at h1
        rw [hs2, ← hrr] at h2
        exact ih _ f1 f2 r1 r2 h1 h2

lemma bestScopes_det (inp : Inp) {f1 f2 : Nat} {bs1 bs2 : FT → Option Nat}
    (h1 : bestScopes inp f1 = some bs1) (h2 : bestScopes inp f2 = some bs2) :
    bs1 = bs2 := by
  unfold bestScopes at h1 h2
  exact foldScopes_det inp inp.sources _ f1 f2 bs1 bs2 h1 h2

lemma sinkPartition_det (inp : Inp) {f1 f2 : Nat}
    {gb1 gb2 : List Sink × List Sink} (h1 : sinkPartition inp f1 = some gb1)
    (h2 : sinkPartition inp f2 = some gb2) : gb1 = gb2 := by
  unfold sinkPartition at h1 h2
  cases hb1 : bestScopes inp f1 with
  | none =>
    rw [hb1] at h1
    simp only [Option.map_none'] at h1
    cases h1
  | some bs1 =>
    cases hb2 : bestScopes inp f2 with
    | none =>
      rw [hb2] at h2
      simp only [Option.map_none'] at h2
      cases h2
    | some bs2 =>
      rw [hb1] at h1
      rw [hb2, ← bestScopes_det inp hb1 hb2] at h2
      simp only [Option.map_some'] at h1 h2
      rw [← Option.some.inj h1, ← Option.some.inj h2]

/-- C3 (amended): the unreachable (bad) sinks and the good sinks the plans
serve are deterministic — equal across any two successful planner runs,
whatever the `set.pop` order and fuel — while `c3_counterexample` shows the
chosen plans themselves can differ. -/
theorem c3_unreachable_deterministic (inp : Inp) (o1 o2 : Nat → Nat)
    (f1 f2 : Nat) (r1 r2 : List Sink × List (Source × Finset Tr) × List Sink)
    (h1 : plugPlans inp o1 f1 = some r1) (h2 : plugPlans inp o2 f2 = some r2) :
    r1.1 = r2.1 ∧ r1.2.2 = r2.2.2 := by
  simp only [plugPlans] at h1 h2
  split at h1
  · cases h1
  · rename_i a l hsinks
    simp only [hsinks] at h2
    split at h1
    · cases h1
    · rename_i gb1 hpart1
      split at h2
      · cases h2
      · rename_i gb2 hpart2
        have hgb : gb2 = gb1 := sinkPartition_det inp hpart2 hpart1
        subst hgb
        split at h1
        · rename_i hg
          split at h2
          · rw [← Option.some.inj h1, ← Option.some.inj h2]
            exact ⟨rfl, rfl⟩
          · rename_i g2 gs2 hg2
            rw [hg] at hg2
            cases hg2
        · rename_i g gs hg
          split at h2
          · rename_i hg2
            rw [hg] at hg2
            cases hg2
          · rename_i g2 gs2 hg2
            rw [hg] at hg2
            obtain ⟨hgg, hgs⟩ := List.cons.inj hg2
            subst hgg
            subst hgs
            split at h1
            · rename_i hflt
              split at h2
              · rw [← Option.some.inj h1, ← Option.some.inj h2]
                exact ⟨rfl, rfl⟩
              · rename_i s22 srest2 hflt2
                rw [hflt] at hflt2
                cases hflt2
            · rename_i s2 srest hflt
              split at h2
              · rename_i hflt2
                rw [hflt] at hflt2
                cases hflt2
              · rename_i s22 srest2 hflt2
                rw [hflt] at hflt2
                obtain ⟨hss, hsr⟩ := List.cons.inj hflt2
                subst hss
                subst hsr
                split at h1
                · cases h1
                · rename_i p1 hloop1
                  split at h2
                  · cases h2
                  · rename_i p2 hloop2
                    split at h1
                    · rename_i pr1 hrun1
                      split at h2
                      · rename_i pr2 hrun2
                        rw [← Option.some.inj h1, ← Option.some.inj h2]
                        exact ⟨rfl, rfl⟩
                      · rename_i hrun2
                        split at h2
                        · cases h2
                        · rename_i q2 hloop2b
                          split at h2
                          · rename_i sq2 hrun2b
                            rw [← Option.some.inj h1, ← Option.some.inj h2]
                            exact ⟨rfl, rfl⟩
                          · cases h2
                    · rename_i hrun1
                      split at h1
                      · cases h1
                      · rename_i q1 hloop1b
                        split at h1
                        · rename_i sq1 hrun1b
                          split at h2
                          · rename_i pr2 hrun2
                            rw [← Option.some.inj h1, ← Option.some.inj h2]
                            exact ⟨rfl, rfl⟩
                          · rename_i hrun2
                            split at h2
                            · cases h2
                            · rename_i q2 hloop2b
                              split at h2
                              · rename_i sq2 hrun2b
                                rw [← Option.some.inj h1, ← Option.some.inj h2]
                                exact ⟨rfl, rfl⟩
                              · cases h2
                        · cases h1

/-- Witness for C3's amended theorem: the tie-breaking input of
`c3_counterexample`, where the two oracles pick different plans but the
same bad and good sinks. -/
theorem c3_unreachable_deterministic_witness :
    (([], [((⟨0, FT.ver, 0, 5⟩ : Source), (∅ : Finset Tr))],
        [(⟨0, FT.ver, 0, 0⟩ : Sink)]) :
      List Sink × List (Source × Finset Tr) × List Sink).1 =
    (([], [(⟨1, FT.pkg, 0, 5⟩, {⟨0, FT.pkg, FT.ver, 0, 0⟩})],
        [(⟨0, FT.ver, 0, 0⟩ : Sink)]) :
      List Sink × List (Source × Finset Tr) × List Sink).1 ∧
    (([], [((⟨0, FT.ver, 0, 5⟩ : Source), (∅ : Finset Tr))],
        [(⟨0, FT.ver, 0, 0⟩ : Sink)]) :
      List Sink × List (Source × Finset Tr) × List Sink).2.2 =
    (([], [(⟨1, FT.pkg, 0, 5⟩, {⟨0, FT.pkg, FT.ver, 0, 0⟩})],
        [(⟨0, FT.ver, 0, 0⟩ : Sink)]) :
      List Sink × List (Source × Finset Tr) × List Sink).2.2 :=
  c3_unreachable_deterministic
    ⟨[⟨0, FT.ver, 0, 0⟩],
     [⟨0, FT.pkg, FT.ver, 0, 0⟩],
     [⟨0, FT.ver, 0, 5⟩, ⟨1, FT.pkg, 0, 5⟩]⟩
    (fun _ => 0) (fun n => if n = 0 then 1 else if n = 1 then 1 else 0) 60 60
    ([], [(⟨0, FT.ver, 0, 5⟩, ∅)], [⟨0, FT.ver, 0, 0⟩])
    ([], [(⟨1, FT.pkg, 0, 5⟩, {⟨0, FT.pkg, FT.ver, 0, 0⟩})],
      [⟨0, FT.ver, 0, 0⟩])
    (by decide) (by decide)

end Pkgcheck
